import Mathlib

/-!
Shallow embedding of the indexing engine (`src/Index.py`, `src/MultiIndex.py`)
of the TestPandas repository, together with theorems settling the frozen
claims about it.

Modelling conventions:
* Python scalars (`Basic`) are modelled by `Scalar` (int, string, nested
  non-empty tuples).  Floats appear in the source only through the NaN
  validation check; no claim depends on float arithmetic, so the float
  constructor is omitted.
* Python `dict`s are modelled by insertion-ordered association lists with
  Python's semantics: assignment updates an existing key in place, otherwise
  appends at the end.
* Raised exceptions are modelled by the `Except PErr` monad (`PyM`).  The
  exception class is kept, messages are dropped.
* Python's `set()` iteration order is unspecified; where the source iterates
  over a `set` to assign interning keys we fix first-occurrence order (as the
  source's own `memory_efficient` branch does).  No claim depends on which
  dense key a value receives.
-/

mutual
/-- Python `Basic` values: int, str, or non-empty tuple of them (§3 of the
source's type aliases). Floats are omitted (no claim exercises them). -/
inductive Scalar : Type where
  | int : Int → Scalar
  | str : String → Scalar
  | tup : ScalarTuple → Scalar
deriving DecidableEq, Repr

/-- A Python tuple of `Scalar`s (own list type so equality can be derived). -/
inductive ScalarTuple : Type where
  | nil : ScalarTuple
  | cons : Scalar → ScalarTuple → ScalarTuple
deriving DecidableEq, Repr
end

instance : Inhabited Scalar := ⟨.int 0⟩

/-- Length of a `ScalarTuple`. -/
def ScalarTuple.length : ScalarTuple → Nat
  | .nil => 0
  | .cons _ t => t.length + 1

/-- The elements of a `ScalarTuple` as a Lean list. -/
def ScalarTuple.toList : ScalarTuple → List Scalar
  | .nil => []
  | .cons a t => a :: t.toList

/-- Build a `ScalarTuple` from a Lean list. -/
def ScalarTuple.ofList : List Scalar → ScalarTuple
  | [] => .nil
  | a :: t => .cons a (ScalarTuple.ofList t)

/-- Python exception classes raised by the engine (messages dropped). -/
inductive PErr : Type where
  | typeError | indexError | keyError | valueError
deriving DecidableEq, Repr

/-- Computations that may raise a Python exception. -/
abbrev PyM (α : Type) : Type := Except PErr α

instance {ε α : Type} [DecidableEq ε] [DecidableEq α] : DecidableEq (Except ε α) := fun a b =>
  match a, b with
  | .ok a, .ok b =>
      if h : a = b then .isTrue (by rw [h]) else .isFalse (by simp [h])
  | .error a, .error b =>
      if h : a = b then .isTrue (by rw [h]) else .isFalse (by simp [h])
  | .ok _, .error _ => .isFalse (by simp)
  | .error _, .ok _ => .isFalse (by simp)

/-- `d[k]` on a Python dict: `KeyError` when absent. -/
def dictGet {α β : Type} [DecidableEq α] (d : List (α × β)) (k : α) : PyM β :=
  match d.lookup k with
  | some v => .ok v
  | none => .error .keyError

/-- `d[k] = v` on a Python dict: update in place if present, else append. -/
def dictSet {α β : Type} [DecidableEq α] (d : List (α × β)) (k : α) (v : β) :
    List (α × β) :=
  match d with
  | [] => [(k, v)]
  | (k', v') :: rest =>
      if k' = k then (k', v) :: rest else (k', v') :: dictSet rest k v

/-- `k in d` on a Python dict. -/
def dictMem {α β : Type} [DecidableEq α] (d : List (α × β)) (k : α) : Bool :=
  (d.lookup k).isSome

/-- insert into an ascending list (helper of `pySort`). -/
def insertAsc {α : Type} [LinearOrder α] (x : α) : List α → List α
  | [] => [x]
  | y :: ys => if x ≤ y then x :: y :: ys else y :: insertAsc x ys

/-- `list.sort()` (ascending insertion sort). -/
def pySort {α : Type} [LinearOrder α] : List α → List α
  | [] => []
  | x :: xs => insertAsc x (pySort xs)

/-- `list.remove(x)`: drop the first occurrence (callers check presence). -/
def pyRemove {α : Type} [DecidableEq α] (l : List α) (x : α) : List α :=
  l.erase x

/-- `list.index(x)`: position of the first occurrence, `ValueError` if absent. -/
def pyIndexOf {α : Type} [DecidableEq α] (l : List α) (x : α) : PyM Nat :=
  match l.indexOf? x with
  | some i => .ok i
  | none => .error .valueError

/-- A Python `slice(start, stop, step)` literal. -/
structure PSlice : Type where
  start : Option Int
  stop : Option Int
  step : Option Int
deriving DecidableEq, Repr

/-- Fuel-driven helper of `stepRange` (structural, so the kernel can
evaluate it on concrete inputs). -/
def stepRangeAux (fuel : Nat) (start stop step : Int) : List Int :=
  match fuel with
  | 0 => []
  | fuel + 1 =>
      if (0 < step ∧ start < stop) ∨ (step < 0 ∧ stop < start) then
        start :: stepRangeAux fuel (start + step) stop step
      else []

/-- Distance still to cover; an upper bound on the loop's iteration count. -/
def stepFuel (start stop step : Int) : Nat :=
  if 0 < step then (stop - start).toNat else (start - stop).toNat

/-- The index-enumeration loop shared by Python slicing and the source's
`_get_int_indexes_from_slice`: collect `start, start+step, ...` while
`(step>0 ∧ i<stop) ∨ (step<0 ∧ i>stop)`. -/
def stepRange (start stop step : Int) : List Int :=
  stepRangeAux (stepFuel start stop step) start stop step

/-- CPython's `PySlice_AdjustIndices` normalisation of one bound. -/
def adjustBound (n : Int) (step : Int) (dfltLo dfltHi : Int)
    (b : Option Int) : Int :=
  match b with
  | none => if 0 < step then dfltLo else dfltHi
  | some b =>
      let b := if b < 0 then b + n else b
      if b < 0 then (if step < 0 then -1 else 0)
      else if n ≤ b then (if step < 0 then n - 1 else n) else b

/-- The positions a Python slice `xs[start:stop:step]` visits (step ≠ 0). -/
def pySliceIdx (n : Nat) (start stop : Option Int) (step : Int) : List Int :=
  stepRange (adjustBound n step 0 (n - 1) start)
    (adjustBound n step n (-1) stop) step

/-- Python list slicing `xs[start:stop:step]` for `step ≠ 0`. -/
def pySliceGet {α : Type} [Inhabited α] (xs : List α)
    (start stop : Option Int) (step : Int) : List α :=
  (pySliceIdx xs.length start stop step).map fun i => xs.getD i.toNat default

/-- Python extended-slice assignment `xs[start:stop:step] = [v]*len(...)`
(the source only ever assigns a constant list of matching length, so the
effect is: overwrite each visited position with `v`). -/
def pySliceSet {α : Type} (xs : List α) (start stop : Option Int) (step : Int)
    (v : α) : List α :=
  (pySliceIdx xs.length start stop step).foldl (fun acc i => acc.set i.toNat v) xs

/-- Python slicing raises `ValueError` when the step is zero. -/
def pySliceGetM {α : Type} [Inhabited α] (xs : List α)
    (start stop : Option Int) (step : Int) : PyM (List α) :=
  if step = 0 then .error .valueError else .ok (pySliceGet xs start stop step)

/-- Slice assignment, `ValueError` when the step is zero. -/
def pySliceSetM {α : Type} (xs : List α) (start stop : Option Int) (step : Int)
    (v : α) : PyM (List α) :=
  if step = 0 then .error .valueError else .ok (pySliceSet xs start stop step v)

/-- `list(set(l))`: deduplication.  Python's set order is unspecified; we fix
first-occurrence order (see the header note). -/
def pySetList {α : Type} [DecidableEq α] : List α → List α
  | [] => []
  | x :: xs => x :: (pySetList xs).filter (· ≠ x)

/-- Elements a Python heterogeneous list may hold where the source dispatches
on the runtime type of list entries: bools, ints, anything else. -/
inductive PyElem : Type where
  | pb : Bool → PyElem
  | pi : Int → PyElem
  | po : Scalar → PyElem
deriving DecidableEq, Repr

/-- Using a list entry as an integer position (`isinstance(i, int)`; Python
bools are ints). Anything else raises `TypeError`. -/
def elemToInt : PyElem → PyM Int
  | .pb b => .ok (if b then 1 else 0)
  | .pi i => .ok i
  | .po _ => .error .typeError

/-- The selector shapes `__getitem__`/`__setitem__` dispatch on. -/
inductive Selector : Type where
  | sint : Int → Selector
  | slist : List PyElem → Selector
  | sslice : PSlice → Selector
  | sother : Selector

mutual
/-- `Index._verify_item`: empty tuple is `IndexError`, tuples are checked
recursively; in this model ints and strings are always valid. -/
def verify_item : Scalar → PyM Unit
  | .int _ => .ok ()
  | .str _ => .ok ()
  | .tup t => verify_tuple t

/-- `Index._verify_tuple`: rejects the empty tuple, verifies members. -/
def verify_tuple : ScalarTuple → PyM Unit
  | .nil => .error .indexError
  | .cons a t => do verify_item a; verify_members t

/-- the `for item in tup` loop of `_verify_tuple`. -/
def verify_members : ScalarTuple → PyM Unit
  | .nil => .ok ()
  | .cons a t => do verify_item a; verify_members t
end

/-- `Index._verify_sequence` (the sequence/str type checks hold by typing). -/
def verify_sequence (sequence : List Scalar) : PyM Unit :=
  match sequence with
  | [] => .ok ()
  | a :: rest => do verify_item a; verify_sequence rest

/-- Single-level `Index` state: interned key sequence, both interning maps,
optional cache (key → position list). -/
structure SIndex : Type where
  index : List Nat
  mapping : List (Nat × Scalar)
  rev : List (Scalar × Nat)
  cache : Option (List (Nat × List Int))
deriving DecidableEq, Repr

/-- `len(self)` for the single-level index. -/
def SIndex.len (ix : SIndex) : Nat := ix.index.length

/-- `Index._update_mappings_with_single_item`. -/
def update_mappings_with_single_item (ix : SIndex) (new_mapping : Scalar)
    (verify_entry : Bool := true) : PyM SIndex := do
  if verify_entry then verify_item new_mapping
  if dictMem ix.rev new_mapping then .ok ix
  else
    let length := ix.rev.length
    .ok { ix with mapping := dictSet ix.mapping length new_mapping,
                  rev := dictSet ix.rev new_mapping length }

/-- `Index._update_mappings_with` on a list argument (dedups via `set`). -/
def update_mappings_with (ix : SIndex) (new_mappings : List Scalar)
    (verify_entries : Bool := true) : PyM SIndex := do
  if verify_entries then verify_sequence new_mappings
  (pySetList new_mappings).foldlM
    (fun ix v => update_mappings_with_single_item ix v false) ix

/-- The body of the `_create_cache` enumeration loop (shared by both index
types; the key is the interned key, or the interned key tuple). -/
def create_cache_list {κ : Type} [DecidableEq κ] :
    List κ → Int → List (κ × List Int) → List (κ × List Int)
  | [], _, c => c
  | k :: ks, i, c =>
      create_cache_list ks (i + 1)
        (match c.lookup k with
         | none => dictSet c k [i]
         | some b => dictSet c k (b ++ [i]))

/-- `Index._create_cache`: rebuild the cache from scratch. -/
def create_cache (ix : SIndex) : SIndex :=
  { ix with cache := some (create_cache_list ix.index 0 []) }

/-- `Index.flush_cache`. -/
def flush_cache (ix : SIndex) : SIndex := { ix with cache := none }

/-- The rows argument of `_update_cache`: the source's callers pass either a
list of rows or (in `_append`) a bare int — iterating the latter raises. -/
inductive RowsArg : Type where
  | rlist : List Int → RowsArg
  | rint : Int → RowsArg

/-- `for row in rows`: iterating an `int` raises `TypeError`. -/
def iterRows : RowsArg → PyM (List Int)
  | .rlist l => .ok l
  | .rint _ => .error .typeError

/-- One `row` step of `_update_cache`'s inner loop (shared by both index
types): bounds check, then add (append/create bucket) or remove (missing key
is `KeyError`, missing row is `ValueError`). -/
def cache_apply_row {κ : Type} [DecidableEq κ] (n : Nat) (isAdd : Bool)
    (c : List (κ × List Int)) (k : κ) (row : Int) : PyM (List (κ × List Int)) :=
  if (n : Int) ≤ row then .error .indexError
  else if isAdd then
    match c.lookup k with
    | some b => .ok (dictSet c k (b ++ [row]))
    | none => .ok (dictSet c k [row])
  else do
    let b ← dictGet c k
    if row ∈ b then .ok (dictSet c k (pyRemove b row))
    else .error .valueError

/-- One key of `_update_cache`'s outer loop: iterate the rows argument, apply
each row, then `cache[k].sort()`. -/
def cache_apply_key {κ : Type} [DecidableEq κ] (n : Nat) (isAdd : Bool)
    (c : List (κ × List Int)) (arg : κ × RowsArg) : PyM (List (κ × List Int)) := do
  let rows ← iterRows arg.2
  let c ← rows.foldlM (fun c row => cache_apply_row n isAdd c arg.1 row) c
  let b ← dictGet c arg.1
  .ok (dictSet c arg.1 (pySort b))

/-- `Index._update_cache` with `by_internal_form=True` (keys already interned).
No-op when there is no cache; validates the operation string. -/
def update_cache (ix : SIndex) (operation : String)
    (operation_args : List (Nat × RowsArg)) : PyM SIndex :=
  match ix.cache with
  | none => .ok ix
  | some c =>
      if operation ≠ "add" ∧ operation ≠ "remove" then .error .valueError
      else do
        let c ← operation_args.foldlM
          (cache_apply_key ix.len (operation = "add")) c
        .ok { ix with cache := some c }

/-- `Index._update_cache` with `by_internal_form=False`: keys are original
values, converted through the reverse mapping first (`KeyError` on a miss). -/
def update_cache_by_original (ix : SIndex) (operation : String)
    (operation_args : List (Scalar × RowsArg)) : PyM SIndex :=
  match ix.cache with
  | none => .ok ix
  | some _ =>
      if operation ≠ "add" ∧ operation ≠ "remove" then .error .valueError
      else do
        let forms ← operation_args.mapM fun a =>
          match ix.rev.lookup a.1 with
          | some k => .ok k
          | none => .error PErr.keyError
        update_cache ix operation (forms.zip (operation_args.map (·.2)))

/-- `Index._extend_index`: reject empty, verify, intern the (deduplicated)
values, then append each key, maintaining the cache if one exists. -/
def extend_index (ix : SIndex) (sequence : List Scalar) : PyM SIndex := do
  if sequence.isEmpty then .error .indexError
  verify_sequence sequence
  let uniques := pySetList sequence
  let ix ← update_mappings_with ix uniques false
  sequence.foldlM
    (fun ix item => do
      let k ← dictGet ix.rev item
      let ix := { ix with index := ix.index ++ [k] }
      update_cache ix "add" [(k, .rlist [(ix.len : Int) - 1])])
    ix

/-- `Index.__init__(sequence, cache)` (an empty/`None` sequence is falsy and
skipped, leaving an empty index with no cache). -/
def mkIndex (sequence : List Scalar) (cache : Bool := true) : PyM SIndex := do
  let ix : SIndex := ⟨[], [], [], none⟩
  if sequence.isEmpty then .ok ix
  else
    let ix ← extend_index ix sequence
    .ok (if cache then create_cache ix else ix)

/-- Result of `get_loc`: one position, all positions, or Python `None`. -/
inductive LocRes : Type where
  | one : Int → LocRes
  | many : List Int → LocRes
  | noneRes : LocRes
deriving DecidableEq, Repr

/-- a Python enumerate-and-filter comprehension
`[i for i, x in enumerate(l, i0) if x == tgt]`. -/
def enum_positions {α : Type} [DecidableEq α] (i : Int) (l : List α)
    (tgt : α) : List Int :=
  match l with
  | [] => []
  | x :: xs =>
      if x = tgt then i :: enum_positions (i + 1) xs tgt
      else enum_positions (i + 1) xs tgt

/-- the list comprehension `[i for i, key in enumerate(l) if key == k]`. -/
def enumPositions (l : List Nat) (k : Nat) : List Int :=
  enum_positions 0 l k

/-- `Index.get_loc(index, get_all, give_error)`. -/
def get_loc (ix : SIndex) (index : Scalar) (get_all : Bool := true)
    (give_error : Bool := true) : PyM LocRes := do
  verify_item index
  match ix.rev.lookup index with
  | none => if give_error then .error .keyError else .ok .noneRes
  | some internal_form =>
      if ¬ get_all then
        match ix.cache with
        | some c => do
            let b ← dictGet c internal_form
            match b with
            | [] => .error .indexError
            | p :: _ => .ok (.one p)
        | none => do
            let i ← pyIndexOf ix.index internal_form
            .ok (.one (i : Int))
      else
        match ix.cache with
        | some c => do
            let b ← dictGet c internal_form
            .ok (.many b)
        | none => .ok (.many (enumPositions ix.index internal_form))

/-- `Index._get_item_from_int_index` (its out-of-bounds error is a
`TypeError` in the source). -/
def get_item_from_int_index (ix : SIndex) (index : Int) : PyM Scalar :=
  let i := if index < 0 then (ix.len : Int) + index else index
  if i < 0 ∨ (ix.len : Int) ≤ i then .error .typeError
  else dictGet ix.mapping (ix.index.getD i.toNat 0)

/-- `Index._get_items_from_int_indexes` on a list of actual ints. -/
def get_items_from_int_indexes (ix : SIndex) (index : List Int) :
    PyM (List Scalar) :=
  index.mapM (get_item_from_int_index ix)

/-- `Index._get_items_from_int_indexes` on a raw element list (each entry is
type-checked as an int when it is used, as in the source). -/
def get_items_from_elems (ix : SIndex) (index : List PyElem) :
    PyM (List Scalar) :=
  index.mapM (fun e => do
    let i ← elemToInt e
    get_item_from_int_index ix i)

/-- the collection loop of `_get_int_indexes_from_mask`. -/
def mask_positions : Int → List PyElem → PyM (List Int)
  | _, [] => .ok []
  | i, .pb b :: rest => do
      let l ← mask_positions (i + 1) rest
      .ok (if b then i :: l else l)
  | _, .pi _ :: _ => .error .typeError
  | _, .po _ :: _ => .error .typeError

/-- `Index._get_int_indexes_from_mask`: length check, then positions of the
`True` entries (non-bool entries raise). -/
def get_int_indexes_from_mask (ix : SIndex) (mask : List PyElem) :
    PyM (List Int) :=
  if mask.length ≠ ix.len then .error .indexError
  else mask_positions 0 mask

/-- `Index._get_correct_slice` / `MultiIndex._get_correct_slice` (identical
code, parameterised over `len(self)`). -/
def get_correct_slice (n : Nat) (index : PSlice) : PyM PSlice := do
  let step := index.step.getD 1
  let norm : Option Int → PyM (Option Int) := fun b =>
    match b with
    | none => .ok none
    | some bv =>
        let bv := if bv < 0 then (n : Int) + bv else bv
        if bv < 0 ∨ (n : Int) ≤ bv then .error .indexError else .ok (some bv)
  let start ← norm index.start
  let stop ← norm index.stop
  if 0 < step then
    match start, stop with
    | some s, some t =>
        let (s, t) := if t < s then (t, s) else (s, t)
        if t = (n : Int) - 1 then .ok ⟨some s, none, some step⟩
        else .ok ⟨some s, some (t + 1), some step⟩
    | none, some t =>
        if t = (n : Int) - 1 then .ok ⟨none, none, some step⟩
        else .ok ⟨none, some (t + 1), some step⟩
    | _, _ => .ok ⟨start, stop, some step⟩
  else if step < 0 then
    match start, stop with
    | some s, some t =>
        let (s, t) := if s < t then (t, s) else (s, t)
        if t = 0 then .ok ⟨some s, none, some step⟩
        else .ok ⟨some s, some (t - 1), some step⟩
    | none, some t =>
        if t = (n : Int) - 1 then .ok ⟨none, none, some step⟩
        else .ok ⟨some t, none, some step⟩
    | _, _ => .ok ⟨start, stop, some step⟩
  else .ok ⟨start, stop, some step⟩

/-- `Index._get_items_from_slice`: correct the slice, apply it, map keys back
to original values. -/
def get_items_from_slice (ix : SIndex) (index : PSlice) : PyM (List Scalar) := do
  let cs ← get_correct_slice ix.len index
  let keys ← pySliceGetM ix.index cs.start cs.stop (cs.step.getD 1)
  keys.mapM (dictGet ix.mapping)

/-- `Index._get_int_indexes_from_slice`: default-filled raw expansion of the
slice (conventional half-open stepping, no correction, no bound checks). -/
def get_int_indexes_from_slice (n : Nat) (index : PSlice) : List Int :=
  let step := index.step.getD 1
  let start := index.start.getD (if 0 < step then 0 else (n : Int) - 1)
  let stop := index.stop.getD (if 0 < step then (n : Int) else -1)
  stepRange start stop step

/-- `Index._set_item_by_int_index`: verify, wrap negatives, bounds-check,
intern if new, overwrite the position, then surgically update the cache. -/
def intern_if_new (ix : SIndex) (item : Scalar) : PyM SIndex :=
  if ¬ dictMem ix.rev item then
    update_mappings_with_single_item ix item false
  else .ok ix

def set_item_core (ix : SIndex) (item : Scalar) (index : Int) : PyM SIndex :=
  let i := if index < 0 then index + (ix.len : Int) else index
  if (ix.len : Int) ≤ i ∨ i < 0 then .error .indexError
  else do
    let ix₁ ← intern_if_new ix item
    let internal_form ← dictGet ix₁.rev item
    let previous := ix₁.index.getD i.toNat 0
    let ix₂ := { ix₁ with index := ix₁.index.set i.toNat internal_form }
    let ix₃ ← update_cache ix₂ "remove" [(previous, .rlist [i])]
    update_cache ix₃ "add" [(internal_form, .rlist [i])]

/-- entry point with the optional re-verification of the new value. -/
def set_item_by_int_index (ix : SIndex) (item : Scalar) (index : Int)
    (verify_the_item : Bool := true) : PyM SIndex := do
  if verify_the_item then verify_item item
  set_item_core ix item index

/-- `Index._set_items_by_int_indexes`: verify the value once, then set each
position in turn (each entry type-checked as an int when it is used). -/
def set_items_by_int_indexes (ix : SIndex) (item : Scalar)
    (indexes : List PyElem) : PyM SIndex := do
  verify_item item
  indexes.foldlM
    (fun ix e => do
      let i ← elemToInt e
      set_item_by_int_index ix item i false)
    ix

/-- `Index._append`: intern, append the key, update the cache.  Note the
rows argument is the bare int `len(self)-1` (not a list), as in the source. -/
def index_append (ix : SIndex) (item : Scalar) : PyM SIndex := do
  let ix ← update_mappings_with_single_item ix item
  let k ← dictGet ix.rev item
  let ix := { ix with index := ix.index ++ [k] }
  update_cache_by_original ix "add" [(item, .rint ((ix.len : Int) - 1))]

/-- Result of `Index.__getitem__`: one value or a list of values. -/
inductive GetRes : Type where
  | one : Scalar → GetRes
  | many : List Scalar → GetRes
deriving DecidableEq, Repr

/-- `Index.__getitem__`: dispatch on the selector shape; a list whose first
element is neither bool nor int falls off the `if`/`elif` chain and returns
Python `None` (modelled as `.ok none`). -/
def getitem (ix : SIndex) : Selector → PyM (Option GetRes)
  | .sint i => do
      let v ← get_item_from_int_index ix i
      .ok (some (.one v))
  | .slist [] => .error .indexError
  | .slist (l@(.pb _ :: _)) => do
      let idxs ← get_int_indexes_from_mask ix l
      let vs ← get_items_from_int_indexes ix idxs
      .ok (some (.many vs))
  | .slist (l@(.pi _ :: _)) => do
      let vs ← get_items_from_elems ix l
      .ok (some (.many vs))
  | .slist (.po _ :: _) => .ok none
  | .sslice s => do
      let vs ← get_items_from_slice ix s
      .ok (some (.many vs))
  | .sother => .error .typeError

/-- `Index.__setitem__`: same dispatch, but the set-by-slice path expands the
raw slice half-open via `_get_int_indexes_from_slice`, and an unrecognised
first list element raises `TypeError`. -/
def setitem (ix : SIndex) (index : Selector) (item : Scalar) : PyM SIndex :=
  match index with
  | .sint i => set_item_by_int_index ix item i
  | .slist [] => .error .indexError
  | .slist (l@(.pb _ :: _)) => do
      let idxs ← get_int_indexes_from_mask ix l
      set_items_by_int_indexes ix item (idxs.map .pi)
  | .slist (l@(.pi _ :: _)) => set_items_by_int_indexes ix item l
  | .slist (.po _ :: _) => .error .typeError
  | .sslice s =>
      set_items_by_int_indexes ix item
        ((get_int_indexes_from_slice ix.len s).map .pi)
  | .sother => .error .typeError

/-- `Index.to_list`. -/
def to_list (ix : SIndex) : PyM (List Scalar) :=
  ix.index.mapM (dictGet ix.mapping)

/-- Python list read `l[i]`: one negative wrap, `IndexError` out of range. -/
def pyGet {α : Type} (l : List α) (i : Int) : PyM α :=
  let j := if i < 0 then i + l.length else i
  if j < 0 then .error .indexError
  else
    match l.get? j.toNat with
    | some v => .ok v
    | none => .error .indexError

/-- Python list item assignment `l[i] = v`: one negative wrap, `IndexError`
out of range. -/
def pyAssign {α : Type} (l : List α) (i : Int) (v : α) : PyM (List α) :=
  let j := if i < 0 then i + l.length else i
  if j < 0 ∨ (l.length : Int) ≤ j then .error .indexError
  else .ok (l.set j.toNat v)

/-- Multi-level index state: one key column per level, the shared interning
maps, the recorded level count, optional names, optional row cache. -/
structure MIndex : Type where
  multiindex : List (List Nat)
  mapping : List (Nat × Scalar)
  rev : List (Scalar × Nat)
  levels : Nat
  names : Option (List Scalar)
  cache : Option (List (List Nat × List Int))
deriving DecidableEq, Repr

/-- `len(self)` for the multi-level index: length of the first column. -/
def mlen (m : MIndex) : Nat := (m.multiindex.headD []).length

/-- Python truthiness of `self._cache` (an empty dict is falsy). -/
def mcacheTruthy (m : MIndex) : Bool :=
  match m.cache with
  | some c => ¬ c.isEmpty
  | none => false

/-- The `names` property setter: falsy names pass through; otherwise the
sequence is verified, must match the level count, and must be duplicate-free. -/
def set_names (levels : Nat) (names : Option (List Scalar)) :
    PyM (Option (List Scalar)) :=
  match names with
  | none => .ok none
  | some [] => .ok (some [])
  | some ns => do
      verify_sequence ns
      if ns.length ≠ levels then .error .indexError
      else if (pySetList ns).length ≠ ns.length then .error .valueError
      else .ok (some ns)

/-- The interning loop of `MultiIndex._create_multiindex` (first-seen order;
keys are assigned as `len(mapping)`). -/
def internConsume : List Scalar → List (Nat × Scalar) → List (Scalar × Nat) →
    List (Nat × Scalar) × List (Scalar × Nat)
  | [], m, r => (m, r)
  | x :: xs, m, r =>
      if dictMem r x then internConsume xs m r
      else internConsume xs (dictSet m m.length x) (dictSet r x m.length)

/-- Rebuild the row cache from scratch (`MultiIndex._create_cache`). -/
def mcreate_cache (m : MIndex) : MIndex :=
  let rows := (List.range (mlen m)).map fun i =>
    (List.range m.levels).map fun l => (m.multiindex.getD l []).getD i 0
  { m with cache := some (create_cache_list rows 0 []) }

/-- `MultiIndex.__init__(index, cache, names)` (the `memory_efficient` flag
only changes the unspecified `set` insertion order; we fix first-seen order,
which is exactly the memory-efficient branch). -/
def mkMultiIndex (index : List (List Scalar)) (cache : Bool := true)
    (names : Option (List Scalar) := none) : PyM MIndex := do
  let (mp, rv) := internConsume index.flatten [] []
  let data ← index.mapM (fun seq => seq.mapM (fun item => dictGet rv item))
  let names' ← set_names data.length names
  let m : MIndex := ⟨data, mp, rv, data.length, names', none⟩
  .ok (if cache then mcreate_cache m else m)

/-- `MultiIndex.to_tuples` (rows as lists of original values). -/
def to_tuples (m : MIndex) : PyM (List (List Scalar)) :=
  (List.range (mlen m)).mapM fun i =>
    (List.range m.levels).mapM fun l => do
      let col ← pyGet m.multiindex (l : Int)
      let k ← pyGet col (i : Int)
      dictGet m.mapping k

/-- `MultiIndex.get_row_by_int_index`: wrap negatives, check only the upper
bound, materialise the row. -/
def get_row_by_int_index (m : MIndex) (index : Int) : PyM (List Scalar) := do
  let i := if index < 0 then index + (mlen m : Int) else index
  if (mlen m : Int) ≤ i then .error .indexError
  (List.range m.levels).mapM fun l => do
    let col ← pyGet m.multiindex (l : Int)
    let k ← pyGet col i
    dictGet m.mapping k

/-- the per-component interned lookup loop of `MultiIndex.get_loc`:
`none` models the early `return None` taken when `give_error` is false. -/
def lookup_components (rev : List (Scalar × Nat)) (give_error : Bool) :
    List Scalar → PyM (Option (List Nat))
  | [] => .ok (some [])
  | x :: xs =>
      match rev.lookup x with
      | none => if give_error then .error .keyError else .ok none
      | some k => do
          match ← lookup_components rev give_error xs with
          | some ks => .ok (some (k :: ks))
          | none => .ok none

/-- the level-by-level row comparison of `get_loc`'s linear scan (the
`for`/`else` with early `break`). -/
def row_matches (m : MIndex) (internal : List Nat) (row : Nat) : Bool :=
  internal.enum.all fun p => (m.multiindex.getD p.1 []).getD row 0 = p.2

/-- first matching row of the linear scan, if any. -/
def mscan_first (m : MIndex) (internal : List Nat) : Option Nat :=
  (List.range (mlen m)).find? (row_matches m internal)

/-- `MultiIndex.get_loc(tup, get_all, give_error)`.  Faithful to the source:
the cache-less `get_all=True` scan collects `all_instances` but never returns
it, falling through to the not-found handling; the cached `get_all=True`
probe is a bare dict access (`KeyError` when absent); the cached
`get_all=False` probe is wrapped in `try/except: pass`. -/
def mget_loc (m : MIndex) (tup : ScalarTuple) (get_all : Bool := true)
    (give_error : Bool := true) : PyM LocRes := do
  verify_tuple tup
  let tl := tup.toList
  if tl.length ≠ m.levels then .error .indexError
  match ← lookup_components m.rev give_error tl with
  | none => .ok .noneRes
  | some internal =>
      if ¬ mcacheTruthy m then
        if ¬ get_all then
          match mscan_first m internal with
          | some i => .ok (.one (i : Int))
          | none => if give_error then .error .valueError else .ok .noneRes
        else
          if give_error then .error .valueError else .ok .noneRes
      else
        let c := (m.cache.getD [])
        if ¬ get_all then
          match c.lookup internal with
          | some (p :: _) => .ok (.one p)
          | some [] => if give_error then .error .valueError else .ok .noneRes
          | none => if give_error then .error .valueError else .ok .noneRes
        else do
          let b ← dictGet c internal
          .ok (.many b)

/-- `MultiIndex._update_mappings_with_single_item` (keys assigned as
`len(self._mapping)` here). -/
def mupdate_mappings_with_single_item (m : MIndex) (new_mapping : Scalar) :
    MIndex :=
  if dictMem m.rev new_mapping then m
  else { m with mapping := dictSet m.mapping m.mapping.length new_mapping,
                rev := dictSet m.rev new_mapping m.mapping.length }

/-- `MultiIndex.update_mappings_with` on a list (dedup first, then verify). -/
def mupdate_mappings_with (m : MIndex) (new_mappings : List Scalar) :
    PyM MIndex := do
  let nm := pySetList new_mappings
  verify_sequence nm
  .ok (nm.foldl mupdate_mappings_with_single_item m)

/-- `MultiIndex._verify_new_row`: level-count check, then verify members. -/
def verify_new_row (m : MIndex) (new_row : List Scalar) : PyM Unit := do
  if new_row.length ≠ m.levels then .error .indexError
  verify_sequence new_row

/-- `MultiIndex._get_internal_form_by_int_index` (checks only the upper
bound; negative indexes reach the columns and wrap there). -/
def get_internal_form_by_int_index (m : MIndex) (index : Int) :
    PyM (List Nat) := do
  if (mlen m : Int) ≤ index then .error .indexError
  (List.range m.levels).mapM fun l => do
    let col ← pyGet m.multiindex (l : Int)
    pyGet col index

/-- `MultiIndex._update_cache` with `by_internal_form=True`. -/
def mupdate_cache (m : MIndex) (operation : String)
    (operation_args : List (List Nat × RowsArg)) : PyM MIndex :=
  match m.cache with
  | none => .ok m
  | some c =>
      if operation ≠ "add" ∧ operation ≠ "remove" then .error .valueError
      else do
        let c ← operation_args.foldlM
          (cache_apply_key (mlen m) (operation = "add")) c
        .ok { m with cache := some c }

/-- `MultiIndex._update_cache` with `by_internal_form=False`: each original
value of each key tuple is converted through the reverse mapping first. -/
def mupdate_cache_by_original (m : MIndex) (operation : String)
    (operation_args : List (List Scalar × RowsArg)) : PyM MIndex :=
  match m.cache with
  | none => .ok m
  | some _ =>
      if operation ≠ "add" ∧ operation ≠ "remove" then .error .valueError
      else do
        let forms ← operation_args.mapM fun a =>
          a.1.mapM fun item =>
            match m.rev.lookup item with
            | some k => Except.ok k
            | none => Except.error PErr.keyError
        mupdate_cache m operation (forms.zip (operation_args.map (·.2)))

/-- `MultiIndex._set_int_index`: verify, intern, swap the cache entry for the
row (via original-value keys), then overwrite each level's cell. -/
def mset_int_index (m : MIndex) (index : Int) (new_data : List Scalar)
    (verify_data : Bool := true) (update_mappings : Bool := true)
    (upd_cache : Bool := true) : PyM MIndex := do
  if verify_data then verify_new_row m new_data
  let m ← if update_mappings then mupdate_mappings_with m new_data else .ok m
  let m ← if upd_cache then do
      let row ← get_row_by_int_index m index
      let m ← mupdate_cache_by_original m "remove" [(row, .rlist [index])]
      mupdate_cache_by_original m "add" [(new_data, .rlist [index])]
    else .ok m
  new_data.enum.foldlM
    (fun m p => do
      let k ← dictGet m.rev p.2
      let col ← pyGet m.multiindex (p.1 : Int)
      let col' ← pyAssign col index k
      .ok { m with multiindex := m.multiindex.set p.1 col' })
    m

/-- `MultiIndex._set_multiple_int_indexes`: verify and intern once, then set
each row with verification and mapping updates switched off. -/
def mset_multiple_int_indexes (m : MIndex) (index : List Int)
    (new_data : List Scalar) : PyM MIndex := do
  verify_new_row m new_data
  let m ← mupdate_mappings_with m new_data
  index.foldlM (fun m i => mset_int_index m i new_data false false) m

/-- `MultiIndex.get_rows_by_slice`: correct the slice, slice every column,
materialise the selected rows. -/
def get_rows_by_slice (m : MIndex) (index : PSlice) :
    PyM (List (List Scalar)) := do
  let cs ← get_correct_slice (mlen m) index
  let columns ← (List.range m.levels).mapM fun l => do
    let col ← pyGet m.multiindex (l : Int)
    pySliceGetM col cs.start cs.stop (cs.step.getD 1)
  (List.range (columns.headD []).length).mapM fun i =>
    (List.range m.levels).mapM fun l => do
      let col ← pyGet columns (l : Int)
      let k ← pyGet col (i : Int)
      dictGet m.mapping k

/-- one position of `_set_rows_by_slice`'s cache maintenance: remove the old
row's key tuple at this position, add the new one. -/
def slice_cache_swap (ndif : List Nat) (m : MIndex) (row_index : Int) :
    PyM MIndex := do
  let rif ← get_internal_form_by_int_index m row_index
  let m ← mupdate_cache m "remove" [(rif, .rlist [row_index])]
  mupdate_cache m "add" [(ndif, .rlist [row_index])]

/-- `MultiIndex._set_rows_by_slice`: correct the slice, verify and intern the
new row, swap the cache entries for every selected position (computed from
the corrected slice), then overwrite each column through the corrected
slice. -/
def mset_rows_by_slice (m : MIndex) (index : PSlice) (new_data : List Scalar)
    (upd_cache : Bool := true) : PyM MIndex := do
  let cs ← get_correct_slice (mlen m) index
  verify_new_row m new_data
  let m ← mupdate_mappings_with m new_data
  let m ← if upd_cache then do
      let int_indexes := get_int_indexes_from_slice (mlen m) cs
      let ndif ← new_data.mapM (fun item => dictGet m.rev item)
      int_indexes.foldlM (slice_cache_swap ndif) m
    else .ok m
  new_data.enum.foldlM
    (fun m p => do
      let k ← dictGet m.rev p.2
      let col ← pyGet m.multiindex (p.1 : Int)
      let col' ← pySliceSetM col cs.start cs.stop (cs.step.getD 1) k
      .ok { m with multiindex := m.multiindex.set p.1 col' })
    m

/-- `MultiIndex._compare_names`: false when either `names` is falsy or the
level counts differ; otherwise every one of the first's names must occur
among the second's. -/
def compare_names (m second : MIndex) : Bool :=
  match m.names, second.names with
  | some (n :: ns), some (n2 :: ns2) =>
      if m.levels ≠ second.levels then false
      else (n :: ns).all (fun x => x ∈ (n2 :: ns2))
  | _, _ => false

/-- `MultiIndex._verify_length_of_sequences`. -/
def verify_length_of_sequences (sequences : List (List Scalar)) : PyM Unit :=
  match sequences with
  | [] => .error .indexError
  | s0 :: _ =>
      if sequences.all (fun s => s.length = s0.length) then .ok ()
      else .error .indexError

/-- `MultiIndex._verify_tuple` on a row represented as a list.  -/
def verify_tuple_row (row : List Scalar) : PyM Unit :=
  match row with
  | [] => .error .indexError
  | _ => verify_sequence row

/-- `MultiIndex._verify_tuples` (with the length check). -/
def verify_tuples (tuples : List (List Scalar)) : PyM Unit := do
  tuples.forM verify_tuple_row
  verify_length_of_sequences tuples

/-- one row of `MultiIndex.rows_to_long_columns`: append each entry to its
column; a row longer than the column list raises. -/
def appendRowToCols : List (List Scalar) → List Scalar →
    PyM (List (List Scalar))
  | cols, [] => .ok cols
  | [], _ :: _ => .error .indexError
  | c :: cs, x :: xs => do
      let rest ← appendRowToCols cs xs
      .ok ((c ++ [x]) :: rest)

/-- `MultiIndex.rows_to_long_columns`: transpose rows into level columns
(the column count comes from the first row). -/
def rows_to_long_columns (rows : List (List Scalar)) :
    PyM (List (List Scalar)) :=
  match rows with
  | [] => .error .indexError
  | r0 :: _ => rows.foldlM appendRowToCols (List.replicate r0.length [])

/-- `MultiIndex.from_tuples`. -/
def from_tuples (index : List (List Scalar))
    (names : Option (List Scalar) := none) (cache : Bool := true) :
    PyM MIndex := do
  verify_tuples index
  let cols ← rows_to_long_columns index
  mkMultiIndex cols cache names

/-- the `level_to_extend` translation of `_add_multiindexes`: keys of the
second index become original values, then keys of the first's store. -/
def translateLevel (rev : List (Scalar × Nat)) (mapping : List (Nat × Scalar))
    (col : List Nat) : PyM (List Nat) :=
  col.mapM fun k => do
    let actual ← dictGet mapping k
    dictGet rev actual

/-- the target-level computation of `_add_multiindexes`' merge loop:
`first.names.index(second.names[level])` when the names match, else the
level itself. -/
def merge_target (fst second : MIndex) (names_match : Bool) (level : Nat) :
    PyM Nat :=
  if names_match then do
    let sn ← pyGet (second.names.getD []) (level : Int)
    pyIndexOf (fst.names.getD []) sn
  else .ok level

/-- the `for level in range(levels)` merge loop of `_add_multiindexes`. -/
def merge_levels (second : MIndex) (names_match : Bool) :
    List Nat → MIndex → PyM MIndex
  | [], fst => .ok fst
  | level :: rest, fst => do
      let seconds_level ← pyGet second.multiindex (level : Int)
      let level_to_extend ← translateLevel fst.rev second.mapping seconds_level
      let tgt ← merge_target fst second names_match level
      let col ← pyGet fst.multiindex (tgt : Int)
      merge_levels second names_match rest
        { fst with multiindex := fst.multiindex.set tgt (col ++ level_to_extend) }

/-- the appended-row cache refresh of `_add_multiindexes`. -/
def extend_cache_rows (rows : List Nat) (fst : MIndex) : PyM MIndex :=
  rows.foldlM
    (fun fst row => do
      let rif ← get_internal_form_by_int_index fst (row : Int)
      mupdate_cache fst "add" [(rif, .rlist [(row : Int)])])
    fst

/-- `MultiIndex._add_multiindexes`: level-count check; a non-in-place call
first replaces `first` by `from_tuples(first.to_tuples())` (which carries no
names); union the second's values into the first's store; merge each level
of the second into the first by name when `_compare_names` holds, else
positionally; finally add only the appended row range to a truthy cache. -/
def add_multiindexes (first second : MIndex) (inplace : Bool := false) :
    PyM MIndex := do
  if first.levels ≠ second.levels then .error .indexError
  let first ← if ¬ inplace then do
      let tups ← to_tuples first
      from_tuples tups
    else .ok first
  let first ← mupdate_mappings_with first (second.rev.map (·.1))
  let names_match := compare_names first second
  let first ← merge_levels second names_match (List.range first.levels) first
  if mcacheTruthy first then
    let startRow := mlen first - mlen second
    extend_cache_rows (List.range' startRow (mlen first - startRow)) first
  else .ok first

/-- `MultiIndex.extend` (in place). -/
def mextend (m second : MIndex) : PyM MIndex :=
  add_multiindexes m second true

/-- `MultiIndex.__add__` (returns a fresh index). -/
def madd (m second : MIndex) : PyM MIndex :=
  add_multiindexes m second false

/-- `MultiIndex.__contains__`: non-tuples and arity mismatches are `False`;
with a truthy cache, membership of the interned key tuple among the cache
keys (any lookup failure caught as `False`); otherwise a `get_loc` probe with
every exception caught. -/
def mcontains (m : MIndex) (item : Scalar) : PyM Bool :=
  match item with
  | .tup t =>
      if m.levels ≠ t.length then .ok false
      else if mcacheTruthy m then
        match t.toList.mapM (fun s => m.rev.lookup s) with
        | some internal => .ok (dictMem (m.cache.getD []) internal)
        | none => .ok false
      else
        match mget_loc m t false true with
        | .ok _ => .ok true
        | .error _ => .ok false
  | _ => .ok false


/-- Apply a sequence of positional `__setitem__` operations to a single-level
index. -/
def apply_set_ops (ix : SIndex) : List (Selector × Scalar) → PyM SIndex
  | [] => .ok ix
  | op :: rest => do
      let ix ← setitem ix op.1 op.2
      apply_set_ops ix rest

/-- Spec-side: the ascending positions of `v` in `s` (the claims' "positions
`i` where `s[i] == v`"). -/
def positions_of (s : List Scalar) (v : Scalar) : List Int :=
  enum_positions 0 s v

/-- level `l`'s key column. -/
def colOf (m : MIndex) (l : Nat) : List Nat :=
  m.multiindex.getD l []

/-- Spec-side total read of row `p` of a multi-index. -/
def readRow (m : MIndex) (p : Int) : List Scalar :=
  (List.range m.levels).map fun l =>
    (m.mapping.lookup ((colOf m l).getD p.toNat 0)).getD default

/-- The positions `_set_rows_by_slice` writes: the half-open expansion of the
corrected slice. -/
def slice_write_positions (n : Nat) (sl : PSlice) : PyM (List Int) := do
  let cs ← get_correct_slice n sl
  .ok (get_int_indexes_from_slice n cs)

/-- Structural well-formedness of a multi-index (holds for every index the
constructors build): recorded level count, rectangular columns, mutually
inverse interning maps, and all column keys interned. -/
structure MWF (m : MIndex) : Prop where
  levels_eq : m.levels = m.multiindex.length
  cols_len : ∀ col ∈ m.multiindex, col.length = mlen m
  maps_fwd : ∀ p ∈ m.mapping, m.rev.lookup p.2 = some p.1
  maps_bwd : ∀ p ∈ m.rev, m.mapping.lookup p.2 = some p.1
  cols_dom : ∀ col ∈ m.multiindex, ∀ k ∈ col, (m.mapping.lookup k).isSome

/-- The cache invariant of the single-level index: every key's bucket (an
absent key counting as the empty bucket) is exactly the ascending list of
positions currently holding that key. -/
def CacheOK (c : List (Nat × List Int)) (l : List Nat) : Prop :=
  ∀ k, (c.lookup k).getD [] = enumPositions l k

/-- Either no cache is attached, or the attached cache satisfies the bucket
invariant (`CacheOK`). -/
def SInvO (ix : SIndex) : Prop :=
  ix.cache = none ∨ ∃ c, ix.cache = some c ∧ CacheOK c ix.index

/-- all interned keys are below the store's size. -/
def RevBound (rev : List (Scalar × Nat)) : Prop :=
  ∀ p ∈ rev, p.2 < rev.length

/-- distinct values never share an interned key. -/
def RevInj (rev : List (Scalar × Nat)) : Prop :=
  ∀ v₁ v₂ k, rev.lookup v₁ = some k → rev.lookup v₂ = some k → v₁ = v₂

/-- Spec-side: the interned key tuple of row `i`. -/
def rowKeys (m : MIndex) (i : Nat) : List Nat :=
  (List.range m.levels).map fun l => (colOf m l).getD i 0

/-- Spec-side: the rows of a multi-index as original-value lists. -/
def rowsOf (m : MIndex) : List (List Scalar) :=
  (List.range (mlen m)).map fun (i : Nat) => readRow m (i : Int)

/-! ### Theorems -/

theorem stepFuel_pos (start stop step : Int)
    (h : (0 < step ∧ start < stop) ∨ (step < 0 ∧ stop < start)) :
    0 < stepFuel start stop step := by
  unfold stepFuel
  rcases h with ⟨ha, hb⟩ | ⟨ha, hb⟩
  · rw [if_pos ha]; omega
  · rw [if_neg (by omega)]; omega

theorem stepFuel_decr (start stop step : Int)
    (h : (0 < step ∧ start < stop) ∨ (step < 0 ∧ stop < start)) :
    stepFuel (start + step) stop step + 1 ≤ stepFuel start stop step := by
  unfold stepFuel
  rcases h with ⟨ha, hb⟩ | ⟨ha, hb⟩
  · rw [if_pos ha, if_pos ha]; omega
  · rw [if_neg (by omega), if_neg (by omega)]; omega

theorem stepRangeAux_fuel_irrel (fuel₁ : Nat) :
    ∀ (fuel₂ : Nat) (start stop step : Int),
      stepFuel start stop step ≤ fuel₁ → stepFuel start stop step ≤ fuel₂ →
      stepRangeAux fuel₁ start stop step = stepRangeAux fuel₂ start stop step := by
  induction fuel₁ with
  | zero =>
      intro fuel₂ start stop step h1 _
      have hcond : ¬ ((0 < step ∧ start < stop) ∨ (step < 0 ∧ stop < start)) := by
        intro hc
        have := stepFuel_pos start stop step hc
        omega
      cases fuel₂ with
      | zero => rfl
      | succ f => simp [stepRangeAux, hcond]
  | succ f ih =>
      intro fuel₂ start stop step h1 h2
      by_cases hcond : (0 < step ∧ start < stop) ∨ (step < 0 ∧ stop < start)
      · have hpos := stepFuel_pos start stop step hcond
        have hdec := stepFuel_decr start stop step hcond
        cases fuel₂ with
        | zero => omega
        | succ f₂ =>
            simp only [stepRangeAux, if_pos hcond]
            rw [ih f₂ (start + step) stop step (by omega) (by omega)]
      · cases fuel₂ with
        | zero => simp [stepRangeAux, hcond]
        | succ f₂ => simp [stepRangeAux, hcond]

/-- The defining unfolding of `stepRange`. -/
theorem stepRange_eq (start stop step : Int) :
    stepRange start stop step =
      if (0 < step ∧ start < stop) ∨ (step < 0 ∧ stop < start) then
        start :: stepRange (start + step) stop step
      else [] := by
  by_cases hcond : (0 < step ∧ start < stop) ∨ (step < 0 ∧ stop < start)
  · have hpos := stepFuel_pos start stop step hcond
    have hdec := stepFuel_decr start stop step hcond
    unfold stepRange
    rw [if_pos hcond]
    obtain ⟨f, hf⟩ : ∃ f, stepFuel start stop step = f + 1 :=
      ⟨_, (Nat.succ_pred_eq_of_pos hpos).symm⟩
    rw [hf]
    simp only [stepRangeAux, if_pos hcond]
    rw [stepRangeAux_fuel_irrel f (stepFuel (start + step) stop step)
      (start + step) stop step (by omega) le_rfl]
  · unfold stepRange
    rw [if_neg hcond]
    cases hf : stepFuel start stop step with
    | zero => rfl
    | succ f => simp [stepRangeAux, hcond]
/-- C7: for the index built from `0..9`, positional get with slice bounds
`(0, 9, -1)` returns the full sequence in descending order, and with bounds
`(3, 7, 1)` returns `[3,4,5,6,7]`: the corrected slice includes both literal
endpoints and traverses in the direction of the step's sign. -/
theorem C7_corrected_slice_examples :
    (do let ix ← mkIndex ((List.range 10).map (fun i => Scalar.int i))
        getitem ix (.sslice ⟨some 0, some 9, some (-1)⟩)) =
      .ok (some (.many [Scalar.int 9, .int 8, .int 7, .int 6, .int 5,
        .int 4, .int 3, .int 2, .int 1, .int 0])) ∧
    (do let ix ← mkIndex ((List.range 10).map (fun i => Scalar.int i))
        getitem ix (.sslice ⟨some 3, some 7, some 1⟩)) =
      .ok (some (.many [Scalar.int 3, .int 4, .int 5, .int 6, .int 7])) := by
  decide

/-- C10: `Index.__getitem__` with a non-empty list whose first element is
neither a bool nor an int falls off the `if`/`elif` chain and returns
Python `None` without raising, while `Index.__setitem__` with the same
selector raises a `TypeError`. -/
theorem C10_getitem_falls_through_setitem_raises (ix : SIndex) (s : Scalar)
    (rest : List PyElem) (item : Scalar) :
    getitem ix (.slist (.po s :: rest)) = .ok none ∧
    setitem ix (.slist (.po s :: rest)) item = .error .typeError :=
  ⟨rfl, rfl⟩

/-- C5 (code bug): `Index._append` on a cached index raises `TypeError`
because it passes the bare int `len(self)-1` where `_update_cache`'s
documented contract requires a list of rows (`for row in rows` then iterates
an int); without a cache the same append succeeds.  The index list is
already extended when the error is raised, so the cache is left stale. -/
theorem C5_append_with_cache_raises :
    (do let ix ← mkIndex [Scalar.int 1]
        index_append ix (.int 2)) = .error .typeError ∧
    (do let ix ← mkIndex [Scalar.int 1] false
        let ix ← index_append ix (.int 2)
        to_list ix) = .ok [Scalar.int 1, .int 2] := by
  decide

/-- C1 (counterexample): one positional set on a cached two-element index
leaves the incrementally maintained cache with the overwritten key still
present (bound to an empty position list), while rebuilding the cache from
scratch drops that key: the two caches do not have the same key set. -/
theorem C1_counterexample :
    ((do let ix ← mkIndex [Scalar.int 1, Scalar.int 2]
         setitem ix (.sint 0) (.int 2)).map
       (fun (ix : SIndex) => (ix.cache, (create_cache ix).cache))) =
      .ok (some [(0, []), (1, [0, 1])], some [(1, [0, 1])]) ∧
    ((do let ix ← mkIndex [Scalar.int 1, Scalar.int 2]
         setitem ix (.sint 0) (.int 2)).map
       (fun (ix : SIndex) => decide (ix.cache = (create_cache ix).cache))) =
      .ok false := by
  exact ⟨by decide, by decide⟩

/-- C3 (counterexample): on the single-level index built from `0..9`,
positional get through the slice `(3, 7, 1)` reads the five positions
`3,4,5,6,7` (both literal bounds included), but positional set through the
same slice writes only positions `3,4,5,6`: position 7 keeps its old value,
so set does not write the position set that get reads. -/
theorem C3_counterexample :
    (do let ix ← mkIndex ((List.range 10).map (fun i => Scalar.int i))
        getitem ix (.sslice ⟨some 3, some 7, some 1⟩)) =
      .ok (some (.many [Scalar.int 3, .int 4, .int 5, .int 6, .int 7])) ∧
    (do let ix ← mkIndex ((List.range 10).map (fun i => Scalar.int i))
        let ix ← setitem ix (.sslice ⟨some 3, some 7, some 1⟩) (.int 99)
        to_list ix) =
      .ok [Scalar.int 0, .int 1, .int 2, .int 99, .int 99, .int 99, .int 99,
        .int 7, .int 8, .int 9] := by
  decide

/-- C4 (counterexample): two 2-level indexes with order-swapped names
`("a","b")` and `("b","a")`.  In-place `extend` merges by name (appending
the row `(3, 30)`), but the new-index form `first + second` first copies
`first` via `from_tuples`, which drops its names, so it merges positionally
and appends `(30, 3)` instead — contradicting the claim for `+`. -/
theorem C4_counterexample :
    (do let f ← mkMultiIndex [[.int 1, .int 2], [.int 10, .int 20]] true
          (some [.str "a", .str "b"])
        let s ← mkMultiIndex [[.int 30], [.int 3]] true
          (some [.str "b", .str "a"])
        let r ← madd f s
        to_tuples r) =
      .ok [[Scalar.int 1, .int 10], [.int 2, .int 20], [.int 30, .int 3]] ∧
    (do let f ← mkMultiIndex [[.int 1, .int 2], [.int 10, .int 20]] true
          (some [.str "a", .str "b"])
        let s ← mkMultiIndex [[.int 30], [.int 3]] true
          (some [.str "b", .str "a"])
        let r ← mextend f s
        to_tuples r) =
      .ok [[Scalar.int 1, .int 10], [.int 2, .int 20], [.int 3, .int 30]] ∧
    ([[Scalar.int 1, .int 10], [.int 2, .int 20], [.int 30, .int 3]] ≠
      [[Scalar.int 1, .int 10], [.int 2, .int 20], [.int 3, .int 30]]) := by
  decide

/-- C6 (counterexample): in the cached 2-level index with rows `(1,3)` and
`(2,4)`, the tuple `(1,4)` has every component interned but is not a row;
`get_loc((1,4), get_all=True, give_error=False)` raises `KeyError` from the
bare cache probe instead of returning the `None` sentinel. -/
theorem C6_counterexample :
    (do let m ← mkMultiIndex [[.int 1, .int 2], [.int 3, .int 4]]
        mget_loc m (.cons (.int 1) (.cons (.int 4) .nil)) true false) =
      .error .keyError := by
  decide

/-- C9 (counterexample): overwrite row 0 of the cached index with rows
`(1,3)`, `(2,4)` by `(2,4)`; the cache keeps the old row's key tuple with an
empty bucket, so `(1,3) in m` still answers `True` although `(1,3)` is no
longer among the rows. -/
theorem C9_counterexample :
    (do let m ← mkMultiIndex [[.int 1, .int 2], [.int 3, .int 4]]
        let m ← mset_int_index m 0 [.int 2, .int 4]
        let b ← mcontains m (.tup (.cons (.int 1) (.cons (.int 3) .nil)))
        let tt ← to_tuples m
        .ok (b, tt)) =
      .ok (true, [[Scalar.int 2, .int 4], [.int 2, .int 4]]) := by
  decide

theorem lookup_cons_ite {α β : Type} [DecidableEq α] (k ka : α) (va : β)
    (rest : List (α × β)) :
    List.lookup k ((ka, va) :: rest) = if k = ka then some va else List.lookup k rest := by
  by_cases h : k = ka
  · simp [List.lookup_cons, h]
  · simp [List.lookup_cons, beq_false_of_ne h, h]

theorem lookup_dictSet_self {α β : Type} [DecidableEq α] (d : List (α × β))
    (k : α) (v : β) : (dictSet d k v).lookup k = some v := by
  induction d with
  | nil => simp [dictSet, lookup_cons_ite]
  | cons p rest ih =>
      obtain ⟨k', v'⟩ := p
      by_cases h : k' = k
      · subst h; simp [dictSet, lookup_cons_ite]
      · rw [dictSet, if_neg h, lookup_cons_ite, if_neg (fun hh => h hh.symm)]
        exact ih

theorem lookup_dictSet_ne {α β : Type} [DecidableEq α] (d : List (α × β))
    (k k' : α) (v : β) (h : k' ≠ k) :
    (dictSet d k v).lookup k' = d.lookup k' := by
  induction d with
  | nil => simp [dictSet, lookup_cons_ite, h]
  | cons p rest ih =>
      obtain ⟨ka, va⟩ := p
      by_cases hk : ka = k
      · subst hk
        rw [dictSet, if_pos rfl, lookup_cons_ite, lookup_cons_ite]
        simp [h]
      · rw [dictSet, if_neg hk, lookup_cons_ite, lookup_cons_ite]
        by_cases hk' : k' = ka
        · simp [hk']
        · simp only [if_neg hk']
          exact ih

theorem mem_of_lookup_eq_some {α β : Type} [DecidableEq α]
    {d : List (α × β)} {k : α} {v : β} (h : d.lookup k = some v) :
    (k, v) ∈ d := by
  induction d with
  | nil => simp [List.lookup] at h
  | cons p rest ih =>
      obtain ⟨ka, va⟩ := p
      rw [lookup_cons_ite] at h
      by_cases hk : k = ka
      · rw [if_pos hk] at h
        subst hk
        cases h
        simp
      · rw [if_neg hk] at h
        exact List.mem_cons_of_mem _ (ih h)

theorem dictSet_length_of_not_mem {α β : Type} [DecidableEq α]
    (d : List (α × β)) (k : α) (v : β) (h : d.lookup k = none) :
    (dictSet d k v).length = d.length + 1 := by
  induction d with
  | nil => simp [dictSet]
  | cons p rest ih =>
      obtain ⟨ka, va⟩ := p
      rw [lookup_cons_ite] at h
      by_cases hk : k = ka
      · rw [if_pos hk] at h; cases h
      · rw [if_neg hk] at h
        rw [dictSet, if_neg (fun hh => hk hh.symm)]
        simp [ih h]

theorem insertAsc_perm {α : Type} [LinearOrder α] (x : α) (l : List α) :
    List.Perm (insertAsc x l) (x :: l) := by
  induction l with
  | nil => rfl
  | cons y ys ih =>
      by_cases h : x ≤ y
      · simp [insertAsc, h]
      · rw [insertAsc, if_neg h]
        exact (ih.cons y).trans (List.Perm.swap x y ys)

theorem pySort_perm {α : Type} [LinearOrder α] (l : List α) :
    List.Perm (pySort l) l := by
  induction l with
  | nil => rfl
  | cons x xs ih => exact (insertAsc_perm x (pySort xs)).trans (ih.cons x)

theorem insertAsc_sorted {α : Type} [LinearOrder α] (x : α) (l : List α)
    (h : l.Sorted (· ≤ ·)) : (insertAsc x l).Sorted (· ≤ ·) := by
  induction l with
  | nil => simp [insertAsc]
  | cons y ys ih =>
      by_cases hxy : x ≤ y
      · rw [insertAsc, if_pos hxy]
        refine List.sorted_cons.2 ⟨?_, h⟩
        intro b hb
        rcases List.mem_cons.1 hb with rfl | hb
        · exact hxy
        · exact le_trans hxy ((List.sorted_cons.1 h).1 b hb)
      · rw [insertAsc, if_neg hxy]
        have hy := List.sorted_cons.1 h
        refine List.sorted_cons.2 ⟨?_, ih hy.2⟩
        intro b hb
        have hmem : b ∈ x :: ys := (insertAsc_perm x ys).mem_iff.1 hb
        rcases List.mem_cons.1 hmem with rfl | hb'
        · exact le_of_not_le hxy
        · exact hy.1 b hb'

theorem pySort_sorted {α : Type} [LinearOrder α] (l : List α) :
    (pySort l).Sorted (· ≤ ·) := by
  induction l with
  | nil => simp [pySort]
  | cons x xs ih => exact insertAsc_sorted x (pySort xs) ih

theorem pySort_eq_of_sorted {α : Type} [LinearOrder α] (l : List α)
    (h : l.Sorted (· ≤ ·)) : pySort l = l :=
  List.eq_of_perm_of_sorted (pySort_perm l) (pySort_sorted l) h

theorem enum_positions_nil {α : Type} [DecidableEq α] (i : Int) (t : α) :
    enum_positions i ([] : List α) t = [] := rfl

theorem enum_positions_cons {α : Type} [DecidableEq α] (i : Int) (x : α)
    (xs : List α) (t : α) :
    enum_positions i (x :: xs) t =
      if x = t then i :: enum_positions (i + 1) xs t
      else enum_positions (i + 1) xs t := rfl

theorem mem_enum_positions {α : Type} [DecidableEq α] (l : List α) :
    ∀ (i x : Int) (t : α),
      x ∈ enum_positions i l t ↔
        ∃ j : Nat, j < l.length ∧ x = i + j ∧ l.get? j = some t := by
  induction l with
  | nil => intro i x t; simp [enum_positions_nil]
  | cons a as ih =>
      intro i x t
      by_cases ha : a = t
      · rw [enum_positions_cons, if_pos ha]
        subst ha
        simp only [List.mem_cons, ih]
        constructor
        · rintro (rfl | ⟨j, hj, rfl, hget⟩)
          · exact ⟨0, by simp, by simp, by simp⟩
          · exact ⟨j + 1, by simpa using hj, by push_cast; ring,
              by simpa using hget⟩
        · rintro ⟨j, hj, rfl, hget⟩
          cases j with
          | zero => left; simp
          | succ j =>
              right
              refine ⟨j, by simpa using hj, by push_cast; ring,
                by simpa using hget⟩
      · rw [enum_positions_cons, if_neg ha]
        rw [ih]
        constructor
        · rintro ⟨j, hj, rfl, hget⟩
          exact ⟨j + 1, by simpa using hj, by push_cast; ring,
            by simpa using hget⟩
        · rintro ⟨j, hj, rfl, hget⟩
          cases j with
          | zero => simp at hget; exact absurd hget ha
          | succ j =>
              refine ⟨j, by simpa using hj, by push_cast; ring,
                by simpa using hget⟩

theorem enum_positions_sorted {α : Type} [DecidableEq α] (l : List α) :
    ∀ (i : Int) (t : α), (enum_positions i l t).Sorted (· < ·) := by
  induction l with
  | nil => intro i t; simp [enum_positions_nil]
  | cons a as ih =>
      intro i t
      by_cases ha : a = t
      · rw [enum_positions_cons, if_pos ha]
        refine List.sorted_cons.2 ⟨?_, ih (i + 1) t⟩
        intro b hb
        obtain ⟨j, _, rfl, _⟩ := (mem_enum_positions as (i + 1) b t).1 hb
        omega
      · rw [enum_positions_cons, if_neg ha]
        exact ih (i + 1) t

theorem enum_positions_nodup {α : Type} [DecidableEq α] (l : List α)
    (i : Int) (t : α) : (enum_positions i l t).Nodup :=
  (enum_positions_sorted l i t).imp ne_of_lt

theorem enum_positions_sorted_le {α : Type} [DecidableEq α] (l : List α)
    (i : Int) (t : α) : (enum_positions i l t).Sorted (· ≤ ·) :=
  (enum_positions_sorted l i t).imp le_of_lt

/-- Two duplicate-free ascending integer lists with the same members agree. -/
theorem sorted_nodup_eq_of_mem_iff {l₁ l₂ : List Int}
    (s₁ : l₁.Sorted (· ≤ ·)) (s₂ : l₂.Sorted (· ≤ ·))
    (n₁ : l₁.Nodup) (n₂ : l₂.Nodup) (h : ∀ x, x ∈ l₁ ↔ x ∈ l₂) : l₁ = l₂ :=
  List.eq_of_perm_of_sorted ((List.perm_ext_iff_of_nodup n₁ n₂).2 h) s₁ s₂

theorem bind_ok {α β : Type} {x : PyM α} {f : α → PyM β} {b : β}
    (h : (x >>= f) = .ok b) : ∃ a, x = .ok a ∧ f a = .ok b := by
  cases x with
  | ok a => exact ⟨a, rfl, h⟩
  | error e => simp [Bind.bind, Except.bind] at h

theorem dictSet_dictSet {α β : Type} [DecidableEq α] (d : List (α × β))
    (k : α) (v w : β) : dictSet (dictSet d k v) k w = dictSet d k w := by
  induction d with
  | nil => simp [dictSet]
  | cons p rest ih =>
      obtain ⟨ka, va⟩ := p
      by_cases hk : ka = k
      · subst hk; simp [dictSet]
      · simp [dictSet, hk, ih]

theorem enum_positions_eq_nil_of_not_mem {α : Type} [DecidableEq α]
    {l : List α} {t : α} (h : t ∉ l) (i : Int) :
    enum_positions i l t = [] := by
  induction l generalizing i with
  | nil => rfl
  | cons a as ih =>
      have ha : a ≠ t := fun ha => h (ha ▸ List.mem_cons_self a as)
      rw [enum_positions_cons, if_neg ha]
      exact ih (fun hm => h (List.mem_cons_of_mem a hm)) (i + 1)

theorem enum_positions_ne_nil_of_mem {α : Type} [DecidableEq α]
    {l : List α} {t : α} (h : t ∈ l) (i : Int) :
    enum_positions i l t ≠ [] := by
  induction l generalizing i with
  | nil => cases h
  | cons a as ih =>
      rw [enum_positions_cons]
      by_cases ha : a = t
      · simp [ha]
      · rw [if_neg ha]
        have hm : t ∈ as := by
          rcases List.mem_cons.1 h with rfl | hm
          · exact absurd rfl ha
          · exact hm
        exact ih hm (i + 1)

theorem create_cache_list_lookup {κ : Type} [DecidableEq κ] (ks : List κ) :
    ∀ (i : Int) (c : List (κ × List Int)) (k : κ),
      (create_cache_list ks i c).lookup k =
        match c.lookup k with
        | some b => some (b ++ enum_positions i ks k)
        | none =>
            if k ∈ ks then some (enum_positions i ks k) else none := by
  induction ks with
  | nil =>
      intro i c k
      cases hc : c.lookup k <;>
        simp [create_cache_list, enum_positions_nil, hc]
  | cons k' ks ih =>
      intro i c k
      simp only [create_cache_list]
      rw [ih]
      by_cases hkk : k = k'
      · subst hkk
        cases hck : c.lookup k with
        | none =>
            simp [lookup_dictSet_self, enum_positions_cons]
        | some b =>
            simp [lookup_dictSet_self, enum_positions_cons]
      · have hne : k' ≠ k := fun h => hkk h.symm
        cases hck' : c.lookup k' with
        | none =>
            rw [lookup_dictSet_ne c k' k _ hkk]
            cases hck : c.lookup k with
            | none => simp [hck, List.mem_cons, hkk, enum_positions_cons, hne]
            | some b => simp [hck, enum_positions_cons, hne]
        | some b' =>
            rw [lookup_dictSet_ne c k' k _ hkk]
            cases hck : c.lookup k with
            | none => simp [hck, List.mem_cons, hkk, enum_positions_cons, hne]
            | some b => simp [hck, enum_positions_cons, hne]

theorem ok_bind {ε α β : Type} (a : α) (f : α → Except ε β) :
    (Except.ok a >>= f) = f a := rfl

theorem error_bind {ε α β : Type} (e : ε) (f : α → Except ε β) :
    ((Except.error e : Except ε α) >>= f) = .error e := rfl

theorem pure_ok {ε α : Type} (a : α) : (pure a : Except ε α) = .ok a := rfl

theorem pure_ok_inv {ε α : Type} {a b : α}
    (h : (pure a : Except ε α) = .ok b) : a = b := by
  rw [pure_ok] at h
  injection h

theorem dictGet_ok {α β : Type} [DecidableEq α] {d : List (α × β)} {k : α}
    {v : β} (h : dictGet d k = .ok v) : d.lookup k = some v := by
  unfold dictGet at h
  cases hl : d.lookup k <;> rw [hl] at h
  · cases h
  · injection h with h; rw [h]

theorem CacheOK_create (l : List Nat) : CacheOK (create_cache_list l 0 []) l := by
  intro k
  rw [create_cache_list_lookup]
  by_cases hk : k ∈ l
  · simp [hk, enumPositions, List.lookup]
  · simp [hk, enumPositions, List.lookup,
      enum_positions_eq_nil_of_not_mem hk]

theorem create_cache_lookup_of_mem {l : List Nat} {k : Nat} (hk : k ∈ l) :
    (create_cache_list l 0 []).lookup k = some (enumPositions l k) := by
  rw [create_cache_list_lookup]
  simp [hk, enumPositions, List.lookup]

theorem umwsi_ok_fields (ix : SIndex) (v : Scalar) (e : Bool) (ix' : SIndex)
    (h : update_mappings_with_single_item ix v e = .ok ix') :
    ix'.index = ix.index ∧ ix'.cache = ix.cache := by
  simp only [update_mappings_with_single_item] at h
  by_cases he : e
  · rw [if_pos he] at h
    obtain ⟨u, h1, h2⟩ := bind_ok h
    by_cases hm : dictMem ix.rev v
    · rw [if_pos hm] at h2; cases h2; exact ⟨rfl, rfl⟩
    · rw [if_neg hm] at h2; cases h2; exact ⟨rfl, rfl⟩
  · rw [if_neg he] at h
    obtain ⟨u, h1, h2⟩ := bind_ok h
    by_cases hm : dictMem ix.rev v
    · rw [if_pos hm] at h2; cases h2; exact ⟨rfl, rfl⟩
    · rw [if_neg hm] at h2; cases h2; exact ⟨rfl, rfl⟩

theorem update_cache_none (ix : SIndex) (op : String)
    (args : List (Nat × RowsArg)) (h : ix.cache = none) :
    update_cache ix op args = .ok ix := by
  simp [update_cache, h]

theorem mem_enumPositions_iff (l : List Nat) (k : Nat) (x : Int) :
    x ∈ enumPositions l k ↔
      ∃ j : Nat, j < l.length ∧ x = (j : Int) ∧ l.get? j = some k := by
  rw [enumPositions, mem_enum_positions]
  constructor
  · rintro ⟨j, hj, rfl, hget⟩
    exact ⟨j, hj, by omega, hget⟩
  · rintro ⟨j, hj, rfl, hget⟩
    exact ⟨j, hj, by omega, hget⟩

theorem eq_enumPositions_of {b : List Int} {l : List Nat} {k : Nat}
    (hs : b.Sorted (· ≤ ·)) (hn : b.Nodup)
    (hm : ∀ x, x ∈ b ↔ x ∈ enumPositions l k) : b = enumPositions l k :=
  sorted_nodup_eq_of_mem_iff hs (enum_positions_sorted_le l 0 k) hn
    (enum_positions_nodup l 0 k) hm

theorem mem_enumPositions_set (l : List Nat) (j0 : Nat) (hj0 : j0 < l.length)
    (vnew k : Nat) (x : Int) :
    x ∈ enumPositions (l.set j0 vnew) k ↔
      ((x = (j0 : Int) ∧ vnew = k) ∨ (x ∈ enumPositions l k ∧ x ≠ (j0 : Int))) := by
  rw [mem_enumPositions_iff, List.length_set]
  constructor
  · rintro ⟨j, hj, rfl, hget⟩
    rw [List.get?_set_of_lt' _ _ hj0] at hget
    by_cases hjj : j0 = j
    · subst hjj
      rw [if_pos rfl] at hget
      injection hget with hget
      exact Or.inl ⟨rfl, hget⟩
    · rw [if_neg hjj] at hget
      exact Or.inr ⟨(mem_enumPositions_iff l k _).2 ⟨j, hj, rfl, hget⟩, by omega⟩
  · rintro (⟨rfl, rfl⟩ | ⟨hmem, hne⟩)
    · exact ⟨j0, hj0, rfl, by rw [List.get?_set_of_lt' _ _ hj0, if_pos rfl]⟩
    · obtain ⟨j, hj, rfl, hget⟩ := (mem_enumPositions_iff l k _).1 hmem
      refine ⟨j, hj, rfl, ?_⟩
      rw [List.get?_set_of_lt' _ _ hj0, if_neg (by omega)]
      exact hget

theorem update_cache_add_single (ix : SIndex) (c : List (Nat × List Int))
    (hc : ix.cache = some c) (k : Nat) (i : Int) (ix' : SIndex)
    (h : update_cache ix "add" [(k, .rlist [i])] = .ok ix') :
    ¬ ((ix.len : Int) ≤ i) ∧
      ix' = { ix with
        cache := some (dictSet c k (pySort ((c.lookup k).getD [] ++ [i]))) } := by
  rw [update_cache, hc] at h
  simp only [ne_eq, String.reduceEq, not_false_eq_true, and_self, if_neg, reduceIte,
    not_true, false_and, and_false, if_false, true_and, and_true, not_true_eq_false,
    decide_True, decide_False] at h
  obtain ⟨c₁, hfold, hix'⟩ := bind_ok h
  cases hix'
  simp only [List.foldlM, cache_apply_key, iterRows, ok_bind] at hfold
  obtain ⟨c₂, hfoldA, hrest⟩ := bind_ok hfold
  cases pure_ok_inv hrest
  obtain ⟨c₃, hrowp, hrest2⟩ := bind_ok hfoldA
  obtain ⟨c₄, hrow, hp⟩ := bind_ok hrowp
  cases pure_ok_inv hp
  obtain ⟨b', hdg, hfin⟩ := bind_ok hrest2
  have hlook2 := dictGet_ok hdg
  injection hfin with hfin
  simp only [cache_apply_row] at hrow
  by_cases hbound : (ix.len : Int) ≤ i
  · rw [if_pos hbound] at hrow; cases hrow
  · rw [if_neg hbound] at hrow
    simp only [reduceIte] at hrow
    refine ⟨hbound, ?_⟩
    cases hck : c.lookup k with
    | none =>
        rw [hck] at hrow
        injection hrow with hrow
        subst hrow
        rw [lookup_dictSet_self] at hlook2
        injection hlook2 with hlook2
        subst hlook2
        rw [← hfin, dictSet_dictSet]
        rfl
    | some b =>
        rw [hck] at hrow
        injection hrow with hrow
        subst hrow
        rw [lookup_dictSet_self] at hlook2
        injection hlook2 with hlook2
        subst hlook2
        rw [← hfin, dictSet_dictSet]
        rfl

theorem update_cache_remove_single (ix : SIndex) (c : List (Nat × List Int))
    (hc : ix.cache = some c) (k : Nat) (i : Int) (ix' : SIndex)
    (h : update_cache ix "remove" [(k, .rlist [i])] = .ok ix') :
    ∃ b, c.lookup k = some b ∧ i ∈ b ∧ ¬ ((ix.len : Int) ≤ i) ∧
      ix' = { ix with cache := some (dictSet c k (pySort (pyRemove b i))) } := by
  rw [update_cache, hc] at h
  simp only [ne_eq, String.reduceEq, not_false_eq_true, and_self, if_neg, reduceIte,
    not_true, false_and, and_false, if_false, decide_False] at h
  obtain ⟨c₁, hfold, hix'⟩ := bind_ok h
  cases hix'
  simp only [List.foldlM, cache_apply_key, iterRows, ok_bind] at hfold
  obtain ⟨c₂, hfoldA, hrest⟩ := bind_ok hfold
  cases pure_ok_inv hrest
  obtain ⟨c₃, hrowp, hrest2⟩ := bind_ok hfoldA
  obtain ⟨c₄, hrow, hp⟩ := bind_ok hrowp
  cases pure_ok_inv hp
  obtain ⟨b', hdg, hfin⟩ := bind_ok hrest2
  have hlook2 := dictGet_ok hdg
  injection hfin with hfin
  simp only [cache_apply_row] at hrow
  by_cases hbound : (ix.len : Int) ≤ i
  · rw [if_pos hbound] at hrow; cases hrow
  · rw [if_neg hbound] at hrow
    simp only [Bool.false_eq_true, if_false, reduceIte] at hrow
    simp only [dictGet] at hrow
    cases hck : c.lookup k with
    | none => rw [hck] at hrow; rw [error_bind] at hrow; cases hrow
    | some b =>
        rw [hck, ok_bind] at hrow
        by_cases hmem : i ∈ b
        · rw [if_pos hmem] at hrow
          injection hrow with hrow
          refine ⟨b, rfl, hmem, hbound, ?_⟩
          subst hrow
          rw [lookup_dictSet_self] at hlook2
          injection hlook2 with hlook2
          subst hlook2
          rw [← hfin, dictSet_dictSet]
        · rw [if_neg hmem] at hrow; cases hrow

theorem cache_swap_ok (c : List (Nat × List Int)) (l : List Nat)
    (hok : CacheOK c l) (i0 : Nat) (hi0 : i0 < l.length)
    (prev : Nat) (hprev : l.get? i0 = some prev)
    (b : List Int) (hb : c.lookup prev = some b) (knew : Nat) :
    CacheOK
      (dictSet (dictSet c prev (pySort (pyRemove b (i0 : Int)))) knew
        (pySort
          (((dictSet c prev (pySort (pyRemove b (i0 : Int)))).lookup knew).getD []
            ++ [(i0 : Int)])))
      (l.set i0 knew) := by
  simp only [pyRemove]
  have hbval : b = enumPositions l prev := by
    have hp := hok prev
    rw [hb] at hp
    simpa using hp
  have hbmemi : (i0 : Int) ∈ b := by
    rw [hbval, mem_enumPositions_iff]
    exact ⟨i0, hi0, rfl, hprev⟩
  have hbsorted : b.Sorted (· ≤ ·) := by
    rw [hbval]; exact enum_positions_sorted_le _ 0 _
  have hbnodup : b.Nodup := by
    rw [hbval]; exact enum_positions_nodup _ 0 _
  have herase_nodup : (b.erase (i0 : Int)).Nodup := hbnodup.erase _
  have hsort_erase : pySort (b.erase (i0 : Int)) = b.erase (i0 : Int) :=
    pySort_eq_of_sorted _ (hbsorted.sublist (List.erase_sublist _ b))
  have herase_mem : ∀ x, x ∈ b.erase (i0 : Int) ↔ x ∈ b ∧ x ≠ (i0 : Int) := by
    intro x
    rw [hbnodup.mem_erase_iff]
    tauto
  intro k0
  by_cases hk0 : k0 = knew
  · rw [hk0, lookup_dictSet_self, Option.getD_some]
    by_cases hpk : knew = prev
    · subst hpk
      rw [lookup_dictSet_self, Option.getD_some, hsort_erase]
      have hnd : (b.erase (i0 : Int) ++ [(i0 : Int)]).Nodup := by
        refine List.Nodup.append herase_nodup (List.nodup_singleton _) ?_
        intro x hx hx'
        rw [List.mem_singleton] at hx'
        exact absurd hx' ((herase_mem x).1 hx).2
      apply eq_enumPositions_of (pySort_sorted _) ((pySort_perm _).nodup_iff.2 hnd)
      intro x
      rw [(pySort_perm _).mem_iff, List.mem_append, List.mem_singleton, herase_mem,
        mem_enumPositions_set l i0 hi0 knew knew x, ← hbval]
      constructor
      · rintro (⟨hmem, hne⟩ | rfl)
        · exact Or.inr ⟨hmem, hne⟩
        · exact Or.inl ⟨rfl, rfl⟩
      · rintro (⟨rfl, _⟩ | ⟨hmem, hne⟩)
        · exact Or.inr rfl
        · exact Or.inl ⟨hmem, hne⟩
    · rw [lookup_dictSet_ne _ _ _ _ hpk, hok knew]
      have hinotin : (i0 : Int) ∉ enumPositions l knew := by
        rw [mem_enumPositions_iff]
        rintro ⟨j, hj, hji, hget⟩
        have : j = i0 := by omega
        subst this
        rw [hprev] at hget
        injection hget with hget
        exact hpk hget.symm
      have hnd : (enumPositions l knew ++ [(i0 : Int)]).Nodup := by
        refine List.Nodup.append (enum_positions_nodup _ 0 _) (List.nodup_singleton _) ?_
        intro x hx hx'
        rw [List.mem_singleton] at hx'
        subst hx'
        exact hinotin hx
      apply eq_enumPositions_of (pySort_sorted _) ((pySort_perm _).nodup_iff.2 hnd)
      intro x
      rw [(pySort_perm _).mem_iff, List.mem_append, List.mem_singleton,
        mem_enumPositions_set l i0 hi0 knew knew x]
      constructor
      · rintro (hmem | rfl)
        · refine Or.inr ⟨hmem, ?_⟩
          rintro rfl
          exact hinotin hmem
        · exact Or.inl ⟨rfl, rfl⟩
      · rintro (⟨rfl, _⟩ | ⟨hmem, hne⟩)
        · exact Or.inr rfl
        · exact Or.inl hmem
  · rw [lookup_dictSet_ne _ _ _ _ hk0]
    by_cases hpk0 : k0 = prev
    · rw [hpk0, lookup_dictSet_self, Option.getD_some, hsort_erase]
      apply eq_enumPositions_of
        (hbsorted.sublist (List.erase_sublist _ b)) herase_nodup
      intro x
      rw [herase_mem, mem_enumPositions_set l i0 hi0 knew prev x, ← hbval]
      constructor
      · rintro ⟨hmem, hne⟩
        exact Or.inr ⟨hmem, hne⟩
      · rintro (⟨rfl, hvk⟩ | ⟨hmem, hne⟩)
        · exact absurd hvk (fun hh => hk0 (hpk0.trans hh.symm))
        · exact ⟨hmem, hne⟩
    · rw [lookup_dictSet_ne _ _ _ _ hpk0, hok k0]
      apply eq_enumPositions_of (enum_positions_sorted_le _ 0 _)
        (enum_positions_nodup _ 0 _)
      intro x
      rw [mem_enumPositions_set l i0 hi0 knew k0 x]
      constructor
      · intro hmem
        refine Or.inr ⟨hmem, ?_⟩
        rintro rfl
        rw [show enum_positions 0 l k0 = enumPositions l k0 from rfl,
          mem_enumPositions_iff] at hmem
        obtain ⟨j, hj, hji, hget⟩ := hmem
        have : j = i0 := by omega
        subst this
        rw [hprev] at hget
        injection hget with hget
        exact hpk0 hget.symm
      · rintro (⟨rfl, hvk⟩ | ⟨hmem, hne⟩)
        · exact absurd hvk (fun hh => hk0 hh.symm)
        · exact hmem

theorem set_item_core_inv (ix : SIndex) (item : Scalar) (index : Int)
    (ix' : SIndex) (h : set_item_core ix item index = .ok ix')
    (c : List (Nat × List Int)) (hc : ix.cache = some c)
    (hok : CacheOK c ix.index) :
    ∃ c', ix'.cache = some c' ∧ CacheOK c' ix'.index ∧
      ix'.index.length = ix.index.length := by
  simp only [set_item_core] at h
  set i : Int := if index < 0 then index + (ix.len : Int) else index with hi
  by_cases hb : (ix.len : Int) ≤ i ∨ i < 0
  · rw [if_pos hb] at h; cases h
  · rw [if_neg hb] at h
    obtain ⟨ix₁, hin, h⟩ := bind_ok h
    have hfields : ix₁.index = ix.index ∧ ix₁.cache = ix.cache := by
      unfold intern_if_new at hin
      by_cases hm : dictMem ix.rev item
      · simp only [hm, not_true_eq_false, reduceIte, Bool.not_true] at hin
        cases hin
        exact ⟨rfl, rfl⟩
      · simp only [hm, not_false_eq_true, reduceIte, Bool.not_false,
          Bool.false_eq_true] at hin
        exact umwsi_ok_fields _ _ _ _ hin
    obtain ⟨knew, hknew, h⟩ := bind_ok h
    obtain ⟨ix₃, hrem, hadd⟩ := bind_ok h
    have hc₂ : ({ ix₁ with index := ix₁.index.set i.toNat knew } : SIndex).cache
        = some c := by
      simpa [hfields.2] using hc
    obtain ⟨b, hbloc, hbmem, hbbound, hix₃⟩ :=
      update_cache_remove_single _ c hc₂ _ i _ hrem
    subst hix₃
    obtain ⟨hbound2, hix'⟩ := update_cache_add_single _
      (dictSet c (ix₁.index.getD i.toNat 0) (pySort (pyRemove b i))) rfl knew i _ hadd
    subst hix'
    refine ⟨_, rfl, ?_, by simp [hfields.1]⟩
    have hib : 0 ≤ i ∧ i < (ix.index.length : Int) := by
      have hl : (SIndex.len { ix₁ with index := ix₁.index.set i.toNat knew } : Int)
          = (ix.index.length : Int) := by
        simp [SIndex.len, hfields.1]
      rw [hl] at hbbound
      exact ⟨by by_contra hneg; exact hb (Or.inr (by omega)), by omega⟩
    have hi0n : i.toNat < ix.index.length := by omega
    have hicast : ((i.toNat : Nat) : Int) = i := by omega
    have hprev : ix.index.get? i.toNat = some (ix₁.index.getD i.toNat 0) := by
      rw [hfields.1]
      rw [List.getD_eq_getElem?_getD, List.get?_eq_getElem?]
      cases hg : ix.index[i.toNat]? with
      | none => rw [List.getElem?_eq_none_iff] at hg; omega
      | some v => simp [hg]
    have hgoal := cache_swap_ok c ix.index hok i.toNat hi0n
      (ix₁.index.getD i.toNat 0) hprev b hbloc knew
    rw [hicast] at hgoal
    have hidx : ({ ix₁ with index := ix₁.index.set i.toNat knew } : SIndex).index
        = ix.index.set i.toNat knew := by
      simp [hfields.1]
    simpa [hidx, hfields.1] using hgoal

theorem set_item_core_none (ix : SIndex) (item : Scalar) (index : Int)
    (ix' : SIndex) (h : set_item_core ix item index = .ok ix')
    (hc : ix.cache = none) : ix'.cache = none := by
  simp only [set_item_core] at h
  set i : Int := if index < 0 then index + (ix.len : Int) else index with hi
  by_cases hb : (ix.len : Int) ≤ i ∨ i < 0
  · rw [if_pos hb] at h; cases h
  · rw [if_neg hb] at h
    obtain ⟨ix₁, hin, h⟩ := bind_ok h
    have hfields : ix₁.index = ix.index ∧ ix₁.cache = ix.cache := by
      unfold intern_if_new at hin
      by_cases hm : dictMem ix.rev item
      · simp only [hm, not_true_eq_false, reduceIte, Bool.not_true] at hin
        cases hin
        exact ⟨rfl, rfl⟩
      · simp only [hm, not_false_eq_true, reduceIte, Bool.not_false,
          Bool.false_eq_true] at hin
        exact umwsi_ok_fields _ _ _ _ hin
    obtain ⟨knew, hknew, h⟩ := bind_ok h
    obtain ⟨ix₃, hrem, hadd⟩ := bind_ok h
    have hc₂ : ({ ix₁ with index := ix₁.index.set i.toNat knew } : SIndex).cache
        = none := by
      simpa [hfields.2] using hc
    rw [update_cache_none _ _ _ hc₂] at hrem
    injection hrem with hrem
    subst hrem
    rw [update_cache_none _ _ _ hc₂] at hadd
    injection hadd with hadd
    subst hadd
    exact hc₂

theorem set_item_core_sinv (ix : SIndex) (item : Scalar) (index : Int)
    (ix' : SIndex) (h : set_item_core ix item index = .ok ix')
    (hinv : SInvO ix) : SInvO ix' := by
  rcases hinv with hnone | ⟨c, hc, hok⟩
  · exact Or.inl (set_item_core_none _ _ _ _ h hnone)
  · obtain ⟨c', hc', hok', _⟩ := set_item_core_inv _ _ _ _ h c hc hok
    exact Or.inr ⟨c', hc', hok'⟩

theorem set_item_sinv (ix : SIndex) (item : Scalar) (index : Int) (vi : Bool)
    (ix' : SIndex) (h : set_item_by_int_index ix item index vi = .ok ix')
    (hinv : SInvO ix) : SInvO ix' := by
  simp only [set_item_by_int_index] at h
  by_cases hvi : vi
  · rw [if_pos hvi] at h
    obtain ⟨u, _, h⟩ := bind_ok h
    exact set_item_core_sinv _ _ _ _ h hinv
  · rw [if_neg hvi] at h
    obtain ⟨u, _, h⟩ := bind_ok h
    exact set_item_core_sinv _ _ _ _ h hinv

theorem set_items_sinv (item : Scalar) :
    ∀ (elems : List PyElem) (ix ix' : SIndex),
      set_items_by_int_indexes ix item elems = .ok ix' → SInvO ix → SInvO ix' := by
  have hfold : ∀ (elems : List PyElem) (ix ix' : SIndex),
      (elems.foldlM
        (fun ix e => do
          let i ← elemToInt e
          set_item_by_int_index ix item i false) ix) = .ok ix' →
      SInvO ix → SInvO ix' := by
    intro elems
    induction elems with
    | nil =>
        intro ix ix' h hinv
        simp only [List.foldlM] at h
        cases pure_ok_inv h
        exact hinv
    | cons e rest ih =>
        intro ix ix' h hinv
        simp only [List.foldlM] at h
        obtain ⟨ixm, hstep, h⟩ := bind_ok h
        obtain ⟨i, hi, hset⟩ := bind_ok hstep
        exact ih _ _ h (set_item_sinv _ _ _ _ _ hset hinv)
  intro elems ix ix' h hinv
  simp only [set_items_by_int_indexes] at h
  obtain ⟨u, _, h⟩ := bind_ok h
  exact hfold elems ix ix' h hinv

theorem setitem_sinv (ix : SIndex) (sel : Selector) (item : Scalar)
    (ix' : SIndex) (h : setitem ix sel item = .ok ix') (hinv : SInvO ix) :
    SInvO ix' := by
  cases sel with
  | sint i =>
      simp only [setitem] at h
      exact set_item_sinv _ _ _ _ _ h hinv
  | sother => simp only [setitem] at h; cases h
  | sslice s =>
      simp only [setitem] at h
      exact set_items_sinv _ _ _ _ h hinv
  | slist l =>
      cases l with
      | nil => simp only [setitem] at h; cases h
      | cons e rest =>
          cases e with
          | pb b =>
              simp only [setitem] at h
              obtain ⟨idxs, hmask, h⟩ := bind_ok h
              exact set_items_sinv _ _ _ _ h hinv
          | pi i =>
              simp only [setitem] at h
              exact set_items_sinv _ _ _ _ h hinv
          | po s => simp only [setitem] at h; cases h

theorem apply_set_ops_sinv :
    ∀ (ops : List (Selector × Scalar)) (ix ix' : SIndex),
      apply_set_ops ix ops = .ok ix' → SInvO ix → SInvO ix' := by
  intro ops
  induction ops with
  | nil =>
      intro ix ix' h hinv
      cases h
      exact hinv
  | cons op rest ih =>
      intro ix ix' h hinv
      simp only [apply_set_ops] at h
      obtain ⟨ixm, hstep, h⟩ := bind_ok h
      exact ih _ _ h (setitem_sinv _ _ _ _ hstep hinv)

theorem mkIndex_sinv (s : List Scalar) (ix : SIndex)
    (h : mkIndex s true = .ok ix) : SInvO ix := by
  simp only [mkIndex] at h
  by_cases hse : s.isEmpty
  · rw [if_pos hse] at h
    injection h with h
    subst h
    exact Or.inl rfl
  · rw [if_neg hse] at h
    obtain ⟨ixe, hext, hfin⟩ := bind_ok h
    injection hfin with hfin
    subst hfin
    exact Or.inr ⟨_, rfl, CacheOK_create _⟩

/-- C1 (amended): after a cached build and any sequence of successful
positional set operations (single position, position list, boolean mask, or
slice), the incrementally maintained cache agrees with the cache rebuilt from
scratch on every key's bucket — an absent key counting as an empty bucket.
(As the counterexample shows, the key sets themselves may differ: the
maintained cache can retain overwritten keys bound to empty buckets.) -/
theorem C1_amended_cache_agrees (s : List Scalar)
    (ops : List (Selector × Scalar)) (ix₀ ix : SIndex)
    (h₀ : mkIndex s true = .ok ix₀) (h : apply_set_ops ix₀ ops = .ok ix)
    (c : List (Nat × List Int)) (hc : ix.cache = some c) (k : Nat) :
    (c.lookup k).getD [] =
      ((create_cache_list ix.index 0 []).lookup k).getD [] := by
  have hinv := apply_set_ops_sinv ops ix₀ ix h (mkIndex_sinv s ix₀ h₀)
  rcases hinv with hnone | ⟨c', hc', hok⟩
  · rw [hc] at hnone; cases hnone
  · rw [hc] at hc'
    injection hc' with hc'
    subst hc'
    rw [hok k]
    exact (CacheOK_create ix.index k).symm

/-- witness for C1's amended theorem at a concrete input. -/
theorem C1_amended_cache_agrees_witness :
    mkIndex [Scalar.int 1, Scalar.int 2] true =
      .ok ⟨[0, 1], [(0, .int 1), (1, .int 2)], [(.int 1, 0), (.int 2, 1)],
        some [(0, [0]), (1, [1])]⟩ ∧
    apply_set_ops
        ⟨[0, 1], [(0, .int 1), (1, .int 2)], [(.int 1, 0), (.int 2, 1)],
          some [(0, [0]), (1, [1])]⟩ [(Selector.sint 0, Scalar.int 2)] =
      .ok ⟨[1, 1], [(0, .int 1), (1, .int 2)], [(.int 1, 0), (.int 2, 1)],
        some [(0, []), (1, [0, 1])]⟩ ∧
    (([(0, ([] : List Int)), (1, [0, 1])].lookup 1).getD [] =
      ((create_cache_list [1, 1] 0 []).lookup 1).getD []) :=
  ⟨by decide, by decide,
    C1_amended_cache_agrees [Scalar.int 1, Scalar.int 2]
      [(Selector.sint 0, Scalar.int 2)]
      ⟨[0, 1], [(0, .int 1), (1, .int 2)], [(.int 1, 0), (.int 2, 1)],
        some [(0, [0]), (1, [1])]⟩
      ⟨[1, 1], [(0, .int 1), (1, .int 2)], [(.int 1, 0), (.int 2, 1)],
        some [(0, []), (1, [0, 1])]⟩
      (by decide) (by decide) [(0, []), (1, [0, 1])] rfl 1⟩


theorem verify_sequence_mem {s : List Scalar} (h : verify_sequence s = .ok ())
    {v : Scalar} (hv : v ∈ s) : verify_item v = .ok () := by
  induction s with
  | nil => cases hv
  | cons a rest ih =>
      simp only [verify_sequence] at h
      obtain ⟨u, ha, h⟩ := bind_ok h
      rcases List.mem_cons.1 hv with rfl | hv'
      · cases u; exact ha
      · exact ih h hv'

theorem lookup_isSome_dictSet {α β : Type} [DecidableEq α]
    (d : List (α × β)) (k : α) (v : β) (w : α) :
    ((dictSet d k v).lookup w).isSome ↔ w = k ∨ (d.lookup w).isSome := by
  by_cases hw : w = k
  · subst hw; simp [lookup_dictSet_self]
  · rw [lookup_dictSet_ne _ _ _ _ hw]
    simp [hw]

theorem dictSet_append_of_not_mem {α β : Type} [DecidableEq α]
    (d : List (α × β)) (k : α) (v : β) (h : d.lookup k = none) :
    dictSet d k v = d ++ [(k, v)] := by
  induction d with
  | nil => rfl
  | cons p rest ih =>
      obtain ⟨ka, va⟩ := p
      rw [lookup_cons_ite] at h
      by_cases hk : k = ka
      · rw [if_pos hk] at h; cases h
      · rw [if_neg hk] at h
        rw [dictSet, if_neg (fun hh => hk hh.symm), ih h]
        rfl

theorem RevBound_insert (rev : List (Scalar × Nat)) (v : Scalar)
    (hnone : rev.lookup v = none) (hb : RevBound rev) :
    RevBound (dictSet rev v rev.length) := by
  intro p hp
  rw [dictSet_append_of_not_mem _ _ _ hnone] at hp ⊢
  rw [List.length_append, List.length_singleton]
  rcases List.mem_append.1 hp with hp | hp
  · exact lt_trans (hb p hp) (by omega)
  · rw [List.mem_singleton] at hp
    subst hp
    simp

theorem lookup_le_of_bound (rev : List (Scalar × Nat)) (hb : RevBound rev)
    (v : Scalar) (k : Nat) (h : rev.lookup v = some k) : k < rev.length :=
  hb (v, k) (mem_of_lookup_eq_some h)

theorem RevInj_insert (rev : List (Scalar × Nat)) (v : Scalar)
    (hnone : rev.lookup v = none) (hb : RevBound rev) (hinj : RevInj rev) :
    RevInj (dictSet rev v rev.length) := by
  intro v₁ v₂ k h₁ h₂
  by_cases hv₁ : v₁ = v
  · rw [hv₁, lookup_dictSet_self] at h₁
    injection h₁ with h₁
    by_cases hv₂ : v₂ = v
    · rw [hv₁, hv₂]
    · rw [lookup_dictSet_ne _ _ _ _ hv₂] at h₂
      have := lookup_le_of_bound rev hb v₂ k h₂
      omega
  · rw [lookup_dictSet_ne _ _ _ _ hv₁] at h₁
    by_cases hv₂ : v₂ = v
    · rw [hv₂, lookup_dictSet_self] at h₂
      injection h₂ with h₂
      have := lookup_le_of_bound rev hb v₁ k h₁
      omega
    · rw [lookup_dictSet_ne _ _ _ _ hv₂] at h₂
      exact hinj v₁ v₂ k h₁ h₂

theorem umwsi_false_eq (ix : SIndex) (v : Scalar) :
    update_mappings_with_single_item ix v false =
      .ok (if dictMem ix.rev v then ix
        else { ix with mapping := dictSet ix.mapping ix.rev.length v,
                       rev := dictSet ix.rev v ix.rev.length }) := by
  simp only [update_mappings_with_single_item, Bool.false_eq_true, if_false,
    reduceIte]
  by_cases hm : dictMem ix.rev v
  · simp [hm]
  · simp [hm]

theorem intern_fold_char (us : List Scalar) :
    ∀ (ix ix' : SIndex),
      (us.foldlM (fun ix v => update_mappings_with_single_item ix v false) ix)
        = .ok ix' →
      ix'.index = ix.index ∧ ix'.cache = ix.cache ∧
      (∀ v, (ix'.rev.lookup v).isSome ↔ v ∈ us ∨ (ix.rev.lookup v).isSome) ∧
      (RevBound ix.rev → RevBound ix'.rev) ∧
      (RevBound ix.rev → RevInj ix.rev → RevInj ix'.rev) ∧
      (∀ v k, ix.rev.lookup v = some k → ix'.rev.lookup v = some k) := by
  induction us with
  | nil =>
      intro ix ix' h
      simp only [List.foldlM] at h
      cases pure_ok_inv h
      exact ⟨rfl, rfl, by simp, fun hb => hb, fun _ hi => hi, fun v k hk => hk⟩
  | cons u rest ih =>
      intro ix ix' h
      simp only [List.foldlM] at h
      obtain ⟨ixm, hstep, h⟩ := bind_ok h
      rw [umwsi_false_eq] at hstep
      injection hstep with hstep
      obtain ⟨hidx, hcache, hsome, hbnd, hinj, hmono⟩ := ih ixm ix' h
      by_cases hm : dictMem ix.rev u
      · rw [if_pos hm] at hstep
        subst hstep
        refine ⟨hidx, hcache, ?_, hbnd, hinj, hmono⟩
        intro v
        rw [hsome v, List.mem_cons]
        constructor
        · rintro (hv | hv)
          · exact Or.inl (Or.inr hv)
          · exact Or.inr hv
        · rintro ((rfl | hv) | hv)
          · exact Or.inr (by simpa [dictMem] using hm)
          · exact Or.inl hv
          · exact Or.inr hv
      · rw [if_neg hm] at hstep
        have hnone : ix.rev.lookup u = none := by
          simp only [dictMem] at hm
          cases hl : ix.rev.lookup u with
          | none => rfl
          | some k => rw [hl] at hm; simp at hm
        subst hstep
        refine ⟨hidx, hcache, ?_, ?_, ?_, ?_⟩
        · intro v
          rw [hsome v, lookup_isSome_dictSet, List.mem_cons]
          constructor
          · rintro (hv | (rfl | hv))
            · exact Or.inl (Or.inr hv)
            · exact Or.inl (Or.inl rfl)
            · exact Or.inr hv
          · rintro ((rfl | hv) | hv)
            · exact Or.inr (Or.inl rfl)
            · exact Or.inl hv
            · exact Or.inr (Or.inr hv)
        · intro hb
          exact hbnd (RevBound_insert _ _ hnone hb)
        · intro hb hi
          exact hinj (RevBound_insert _ _ hnone hb) (RevInj_insert _ _ hnone hb hi)
        · intro v k hk
          refine hmono v k ?_
          have hvne : v ≠ u := by
            rintro rfl
            rw [hnone] at hk
            cases hk
          rw [lookup_dictSet_ne _ _ _ _ hvne]
          exact hk

theorem append_fold_char (items : List Scalar) :
    ∀ (ix ix' : SIndex), ix.cache = none →
      (items.foldlM
        (fun ix item => do
          let k ← dictGet ix.rev item
          let ix := { ix with index := ix.index ++ [k] }
          update_cache ix "add" [(k, .rlist [(ix.len : Int) - 1])]) ix)
        = .ok ix' →
      ix'.cache = none ∧ ix'.rev = ix.rev ∧ ix'.mapping = ix.mapping ∧
      ix'.index = ix.index ++ items.map (fun v => (ix.rev.lookup v).iget) := by
  induction items with
  | nil =>
      intro ix ix' hcache h
      simp only [List.foldlM] at h
      cases pure_ok_inv h
      exact ⟨hcache, rfl, rfl, by simp⟩
  | cons it rest ih =>
      intro ix ix' hcache h
      simp only [List.foldlM] at h
      obtain ⟨ixm, hstep, h⟩ := bind_ok h
      obtain ⟨k, hk, hstep⟩ := bind_ok hstep
      have hlook := dictGet_ok hk
      rw [update_cache_none _ _ _ (by simpa using hcache)] at hstep
      injection hstep with hstep
      subst hstep
      obtain ⟨hc', hr', hm', hi'⟩ := ih _ _ (by simpa using hcache) h
      refine ⟨hc', by simpa using hr', by simpa using hm', ?_⟩
      rw [hi']
      simp only [List.map_cons]
      rw [hlook]
      simp [Option.iget]

theorem mem_pySetList {α : Type} [DecidableEq α] (l : List α) (x : α) :
    x ∈ pySetList l ↔ x ∈ l := by
  induction l with
  | nil => simp [pySetList]
  | cons a rest ih =>
      simp only [pySetList, List.mem_cons, List.mem_filter]
      constructor
      · rintro (rfl | ⟨hmem, _⟩)
        · exact Or.inl rfl
        · exact Or.inr (ih.1 hmem)
      · rintro (rfl | hmem)
        · exact Or.inl rfl
        · by_cases hx : x = a
          · exact Or.inl hx
          · exact Or.inr ⟨ih.2 hmem, by simpa using hx⟩

theorem extend_index_char (s : List Scalar) (ix' : SIndex)
    (h : extend_index ⟨[], [], [], none⟩ s = .ok ix') :
    ix'.cache = none ∧ verify_sequence s = .ok () ∧
    (∀ v, (ix'.rev.lookup v).isSome ↔ v ∈ s) ∧
    RevInj ix'.rev ∧
    (∀ v ∈ s, ix'.rev.lookup v = some ((ix'.rev.lookup v).iget)) ∧
    ix'.index = s.map (fun v => (ix'.rev.lookup v).iget) := by
  simp only [extend_index] at h
  by_cases hse : s.isEmpty
  · rw [if_pos hse] at h
    rw [error_bind] at h
    cases h
  · rw [if_neg hse] at h
    obtain ⟨u0, hpure0, h⟩ := bind_ok h
    obtain ⟨u1, hveri, h⟩ := bind_ok h
    obtain ⟨ixm, hmap, h⟩ := bind_ok h
    simp only [update_mappings_with, Bool.false_eq_true, if_false, reduceIte] at hmap
    obtain ⟨u2, hpu, hmap⟩ := bind_ok hmap
    obtain ⟨hmidx, hmcache, hmsome, hmbnd, hminj, hmmono⟩ :=
      intern_fold_char (pySetList (pySetList s)) _ _ hmap
    have hmcache' : ixm.cache = none := by simpa using hmcache
    obtain ⟨hc', hr', hmp', hi'⟩ := append_fold_char s ixm ix' hmcache' h
    have hsome : ∀ v, (ix'.rev.lookup v).isSome ↔ v ∈ s := by
      intro v
      rw [hr', hmsome v, mem_pySetList, mem_pySetList]
      constructor
      · rintro (hv | hv)
        · exact hv
        · cases hv
      · exact Or.inl
    refine ⟨hc', by cases u1; exact hveri, hsome, ?_, ?_, ?_⟩
    · rw [hr']
      refine hminj ?_ ?_
      · intro p hp; cases hp
      · intro v₁ v₂ k h₁ h₂; cases h₁
    · intro v hv
      have := (hsome v).2 hv
      cases hl : ix'.rev.lookup v with
      | none => rw [hl] at this; simp at this
      | some k => simp [Option.iget]
    · rw [hi', hr']
      have : ixm.index = [] := by simpa using hmidx
      rw [this]
      simp

theorem mkIndex_char (s : List Scalar) (cache : Bool) (ix : SIndex)
    (h : mkIndex s cache = .ok ix) (hs : ¬ s.isEmpty) :
    ∃ ixe, extend_index ⟨[], [], [], none⟩ s = .ok ixe ∧
      ix = if cache then create_cache ixe else ixe := by
  simp only [mkIndex] at h
  rw [if_neg hs] at h
  obtain ⟨ixe, hext, hfin⟩ := bind_ok h
  injection hfin with hfin
  exact ⟨ixe, hext, hfin.symm⟩

theorem enum_positions_map {α β : Type} [DecidableEq α] [DecidableEq β]
    (f : α → β) (l : List α) (t : α) (tb : β)
    (hf : ∀ x ∈ l, f x = tb ↔ x = t) :
    ∀ i, enum_positions i (l.map f) tb = enum_positions i l t := by
  induction l with
  | nil => intro i; rfl
  | cons a rest ih =>
      intro i
      rw [List.map_cons, enum_positions_cons, enum_positions_cons]
      have ha := hf a (List.mem_cons_self a rest)
      have ihh := ih (fun x hx => hf x (List.mem_cons_of_mem a hx))
      by_cases hfa : f a = tb
      · rw [if_pos hfa, if_pos (ha.1 hfa), ihh]
      · rw [if_neg hfa, if_neg (fun he => hfa (ha.2 he)), ihh]


theorem get_loc_of_none (ix : SIndex) (v : Scalar) (ga ge : Bool)
    (hvi : verify_item v = .ok ()) (hlv : ix.rev.lookup v = none) :
    get_loc ix v ga ge =
      if ge then .error .keyError else .ok .noneRes := by
  obtain ⟨i, m, r, ca⟩ := ix
  simp only [get_loc, hvi, ok_bind]
  simp only at hlv
  rw [hlv]

theorem get_loc_cache_all (ix : SIndex) (v : Scalar) (k : Nat)
    (c : List (Nat × List Int)) (b : List Int) (ge : Bool)
    (hvi : verify_item v = .ok ()) (hlv : ix.rev.lookup v = some k)
    (hc : ix.cache = some c) (hb : c.lookup k = some b) :
    get_loc ix v true ge = .ok (.many b) := by
  obtain ⟨i, m, r, ca⟩ := ix
  simp only at hlv hc
  subst hc
  simp only [get_loc, hvi, ok_bind]
  rw [hlv]
  simp only [dictGet, hb, ok_bind]
  simp

theorem get_loc_cache_one (ix : SIndex) (v : Scalar) (k : Nat)
    (c : List (Nat × List Int)) (p : Int) (t : List Int) (ge : Bool)
    (hvi : verify_item v = .ok ()) (hlv : ix.rev.lookup v = some k)
    (hc : ix.cache = some c) (hb : c.lookup k = some (p :: t)) :
    get_loc ix v false ge = .ok (.one p) := by
  obtain ⟨i, m, r, ca⟩ := ix
  simp only at hlv hc
  subst hc
  simp only [get_loc, hvi, ok_bind]
  rw [hlv]
  simp only [dictGet, hb, ok_bind]
  simp

/-- C2: on a freshly built non-empty `Index`, `get_loc` with `get_all=true`
returns exactly the ascending list of positions holding the label,
`get_all=false` returns the first such position, and for a valid absent label
it raises `KeyError` when `give_error=true` and returns the `None` sentinel
when `give_error=false`. -/
theorem C2_get_loc_characterization (s : List Scalar) (v : Scalar) (ix : SIndex)
    (hne : s ≠ []) (h : mkIndex s true = .ok ix) :
    (∀ x : Int, x ∈ positions_of s v ↔
      ∃ j : Nat, j < s.length ∧ x = (j : Int) ∧ s.get? j = some v) ∧
    (positions_of s v).Sorted (· < ·) ∧
    (v ∈ s →
      positions_of s v ≠ [] ∧
      (∀ ge, get_loc ix v true ge = .ok (.many (positions_of s v))) ∧
      (∀ ge, get_loc ix v false ge =
        .ok (.one ((positions_of s v).headD 0)))) ∧
    (verify_item v = .ok () → v ∉ s →
      (∀ ga, get_loc ix v ga true = .error .keyError) ∧
      (∀ ga, get_loc ix v ga false = .ok .noneRes)) := by
  have hs : ¬ s.isEmpty := by simpa [List.isEmpty_iff] using hne
  obtain ⟨ixe, hext, hix⟩ := mkIndex_char s true ix h hs
  rw [if_pos rfl] at hix
  subst hix
  obtain ⟨hcache, hveri, hsome, hinj, hlook, hidx⟩ := extend_index_char s ixe hext
  have hrev : (create_cache ixe).rev = ixe.rev := rfl
  have hcc : (create_cache ixe).cache = some (create_cache_list ixe.index 0 []) := rfl
  refine ⟨?_, ?_, ?_, ?_⟩
  · intro x
    rw [positions_of, mem_enum_positions]
    simp
  · exact enum_positions_sorted s 0 v
  · intro hv
    have hvi : verify_item v = .ok () := verify_sequence_mem hveri hv
    have hlv : (create_cache ixe).rev.lookup v
        = some ((ixe.rev.lookup v).iget) := by
      rw [hrev]; exact hlook v hv
    have hkmem : ((ixe.rev.lookup v).iget) ∈ ixe.index := by
      rw [hidx]
      exact List.mem_map.2 ⟨v, hv, rfl⟩
    have hb : (create_cache_list ixe.index 0 []).lookup ((ixe.rev.lookup v).iget)
        = some (enumPositions ixe.index ((ixe.rev.lookup v).iget)) :=
      create_cache_lookup_of_mem hkmem
    have hposeq : enumPositions ixe.index ((ixe.rev.lookup v).iget)
        = positions_of s v := by
      rw [hidx, enumPositions, positions_of]
      refine enum_positions_map _ s v _ ?_ 0
      intro x hx
      constructor
      · intro hfx
        refine hinj x v _ ?_ (hlook v hv)
        rw [← hfx]
        exact hlook x hx
      · rintro rfl
        rfl
    have hne' : positions_of s v ≠ [] := by
      rw [positions_of]
      exact enum_positions_ne_nil_of_mem hv 0
    refine ⟨hne', ?_, ?_⟩
    · intro ge
      rw [get_loc_cache_all (create_cache ixe) v _ _ _ ge hvi hlv hcc hb,
        hposeq]
    · intro ge
      cases hpl : positions_of s v with
      | nil => exact absurd hpl hne'
      | cons p tail =>
          rw [hposeq, hpl] at hb
          rw [get_loc_cache_one (create_cache ixe) v _ _ p tail ge hvi hlv hcc hb]
          rfl
  · intro hvi hv
    have hlv : (create_cache ixe).rev.lookup v = none := by
      rw [hrev]
      cases hl : ixe.rev.lookup v with
      | none => rfl
      | some k =>
          exfalso
          exact hv ((hsome v).1 (by rw [hl]; rfl))
    exact ⟨fun ga => by rw [get_loc_of_none _ _ _ _ hvi hlv]; rfl,
      fun ga => by rw [get_loc_of_none _ _ _ _ hvi hlv]; rfl⟩

theorem get_loc_verify_error (ix : SIndex) (v : Scalar) (ga ge : Bool)
    (e : PErr) (hvi : verify_item v = .error e) :
    get_loc ix v ga ge = .error e := by
  obtain ⟨i, m, r, ca⟩ := ix
  simp only [get_loc, hvi, error_bind]

theorem get_loc_nocache_all (ix : SIndex) (v : Scalar) (k : Nat) (ge : Bool)
    (hvi : verify_item v = .ok ()) (hlv : ix.rev.lookup v = some k)
    (hc : ix.cache = none) :
    get_loc ix v true ge = .ok (.many (enumPositions ix.index k)) := by
  obtain ⟨i, m, r, ca⟩ := ix
  simp only at hlv hc
  subst hc
  simp only [get_loc, hvi, ok_bind]
  rw [hlv]
  simp

theorem get_loc_nocache_one (ix : SIndex) (v : Scalar) (k j : Nat) (ge : Bool)
    (hvi : verify_item v = .ok ()) (hlv : ix.rev.lookup v = some k)
    (hc : ix.cache = none) (hj : ix.index.indexOf? k = some j) :
    get_loc ix v false ge = .ok (.one (j : Int)) := by
  obtain ⟨i, m, r, ca⟩ := ix
  simp only at hlv hc hj
  subst hc
  simp only [get_loc, hvi, ok_bind]
  rw [hlv]
  simp only [pyIndexOf, hj, ok_bind]
  simp

theorem enum_positions_head {α : Type} [DecidableEq α] (l : List α) (t : α)
    (h : t ∈ l) :
    ∃ j : Nat, l.indexOf? t = some j ∧
      ∀ i, (enum_positions i l t).headD 0 = i + j := by
  induction l with
  | nil => cases h
  | cons a as ih =>
      by_cases ha : a = t
      · refine ⟨0, ?_, ?_⟩
        · simp [List.indexOf?_cons, ha]
        · intro i
          rw [enum_positions_cons, if_pos ha]
          simp
      · have hmem : t ∈ as := by
          cases h with
          | head => exact absurd rfl ha
          | tail _ h => exact h
        obtain ⟨j, hj, hh⟩ := ih hmem
        refine ⟨j + 1, ?_, ?_⟩
        · simp [List.indexOf?_cons, ha, hj]
        · intro i
          rw [enum_positions_cons, if_neg ha, hh]
          push_cast
          ring

/-- C8: `Index(s, cache=true)` and `Index(s, cache=false)` built from the same
non-empty sequence return identical results (same value or same failure) for
every `get_loc` call and for every positional get: single int, int list,
boolean mask, or slice selector. -/
theorem C8_cache_equivalence (s : List Scalar) (ixc ixn : SIndex) (hne : s ≠ [])
    (hc : mkIndex s true = .ok ixc) (hn : mkIndex s false = .ok ixn) :
    (∀ (v : Scalar) (ga ge : Bool),
      get_loc ixc v ga ge = get_loc ixn v ga ge) ∧
    (∀ sel : Selector, getitem ixc sel = getitem ixn sel) := by
  have hs : ¬ s.isEmpty := by simpa [List.isEmpty_iff] using hne
  obtain ⟨ixe, hext, hixc⟩ := mkIndex_char s true ixc hc hs
  obtain ⟨ixe', hext', hixn⟩ := mkIndex_char s false ixn hn hs
  rw [hext] at hext'
  injection hext' with he
  subst he
  rw [if_pos rfl] at hixc
  rw [if_neg (by simp)] at hixn
  subst hixc
  subst hixn
  obtain ⟨hcache, hveri, hsome, hinj, hlook, hidx⟩ := extend_index_char s ixn hext
  have hrev : (create_cache ixn).rev = ixn.rev := rfl
  have hcc : (create_cache ixn).cache
      = some (create_cache_list ixn.index 0 []) := rfl
  refine ⟨?_, fun sel => rfl⟩
  intro v ga ge
  cases hvv : verify_item v with
  | error e =>
      rw [get_loc_verify_error _ _ _ _ _ hvv, get_loc_verify_error _ _ _ _ _ hvv]
  | ok u =>
      cases u
      cases hl : ixn.rev.lookup v with
      | none =>
          rw [get_loc_of_none _ _ _ _ hvv (by rw [hrev]; exact hl),
            get_loc_of_none _ _ _ _ hvv hl]
      | some k =>
          have hv : v ∈ s := (hsome v).1 (by rw [hl]; rfl)
          have hkmem : k ∈ ixn.index := by
            rw [hidx]
            refine List.mem_map.2 ⟨v, hv, ?_⟩
            rw [hl]
          cases ga with
          | true =>
              rw [get_loc_cache_all (create_cache ixn) v k _ _ ge hvv
                  (by rw [hrev]; exact hl) hcc (create_cache_lookup_of_mem hkmem),
                get_loc_nocache_all ixn v k ge hvv hl hcache]
          | false =>
              obtain ⟨j, hj, hh⟩ := enum_positions_head ixn.index k hkmem
              have hnn : enumPositions ixn.index k ≠ [] := by
                rw [enumPositions]
                exact enum_positions_ne_nil_of_mem hkmem 0
              cases hpl : enumPositions ixn.index k with
              | nil => exact absurd hpl hnn
              | cons p t =>
                  have hpj : p = (j : Int) := by
                    have := hh 0
                    rw [show enum_positions 0 ixn.index k
                        = enumPositions ixn.index k from rfl, hpl] at this
                    simpa using this
                  have hb : (create_cache_list ixn.index 0 []).lookup k
                      = some (p :: t) := by
                    rw [create_cache_lookup_of_mem hkmem, hpl]
                  rw [get_loc_cache_one (create_cache ixn) v k _ p t ge hvv
                      (by rw [hrev]; exact hl) hcc hb,
                    get_loc_nocache_one ixn v k j ge hvv hl hcache hj, hpj]

theorem C2_get_loc_characterization_witness :
    ([Scalar.int 1, Scalar.int 2, Scalar.int 1] ≠ ([] : List Scalar)) ∧
    mkIndex [Scalar.int 1, Scalar.int 2, Scalar.int 1] true =
      .ok ⟨[0, 1, 0], [(0, Scalar.int 1), (1, Scalar.int 2)],
        [(Scalar.int 1, 0), (Scalar.int 2, 1)], some [(0, [0, 2]), (1, [1])]⟩ ∧
    get_loc ⟨[0, 1, 0], [(0, Scalar.int 1), (1, Scalar.int 2)],
        [(Scalar.int 1, 0), (Scalar.int 2, 1)], some [(0, [0, 2]), (1, [1])]⟩
      (Scalar.int 1) true true
      = .ok (.many (positions_of [Scalar.int 1, Scalar.int 2, Scalar.int 1]
          (Scalar.int 1))) :=
  ⟨by decide, by decide,
    ((C2_get_loc_characterization [Scalar.int 1, Scalar.int 2, Scalar.int 1] (Scalar.int 1)
        ⟨[0, 1, 0], [(0, Scalar.int 1), (1, Scalar.int 2)],
          [(Scalar.int 1, 0), (Scalar.int 2, 1)], some [(0, [0, 2]), (1, [1])]⟩
        (by decide) (by decide)).2.2.1 (by decide)).2.1 true⟩

theorem C8_cache_equivalence_witness :
    ([Scalar.int 1, Scalar.int 2, Scalar.int 1] ≠ ([] : List Scalar)) ∧
    mkIndex [Scalar.int 1, Scalar.int 2, Scalar.int 1] true =
      .ok ⟨[0, 1, 0], [(0, Scalar.int 1), (1, Scalar.int 2)],
        [(Scalar.int 1, 0), (Scalar.int 2, 1)], some [(0, [0, 2]), (1, [1])]⟩ ∧
    mkIndex [Scalar.int 1, Scalar.int 2, Scalar.int 1] false =
      .ok ⟨[0, 1, 0], [(0, Scalar.int 1), (1, Scalar.int 2)],
        [(Scalar.int 1, 0), (Scalar.int 2, 1)], none⟩ ∧
    get_loc ⟨[0, 1, 0], [(0, Scalar.int 1), (1, Scalar.int 2)],
        [(Scalar.int 1, 0), (Scalar.int 2, 1)], some [(0, [0, 2]), (1, [1])]⟩
      (Scalar.int 1) false true
      = get_loc ⟨[0, 1, 0], [(0, Scalar.int 1), (1, Scalar.int 2)],
        [(Scalar.int 1, 0), (Scalar.int 2, 1)], none⟩
      (Scalar.int 1) false true :=
  ⟨by decide, by decide, by decide,
    (C8_cache_equivalence [Scalar.int 1, Scalar.int 2, Scalar.int 1]
      ⟨[0, 1, 0], [(0, Scalar.int 1), (1, Scalar.int 2)],
        [(Scalar.int 1, 0), (Scalar.int 2, 1)], some [(0, [0, 2]), (1, [1])]⟩
      ⟨[0, 1, 0], [(0, Scalar.int 1), (1, Scalar.int 2)],
        [(Scalar.int 1, 0), (Scalar.int 2, 1)], none⟩
      (by decide) (by decide) (by decide)).1 (Scalar.int 1) false true⟩


set_option maxHeartbeats 2000000 in
theorem get_correct_slice_bounds (n : Nat) (sl cs : PSlice)
    (h : get_correct_slice n sl = .ok cs) :
    cs.step = some (sl.step.getD 1) ∧
    (∀ s, cs.start = some s → 0 ≤ s ∧ s < n) ∧
    (∀ t, cs.stop = some t → 0 ≤ t ∧ t < n) := by
  rcases sl with ⟨sb, tb, stb⟩
  simp only [get_correct_slice] at h
  cases sb <;> cases tb <;>
    simp only [ok_bind] at h <;>
    repeat' (first | (split at h) | (simp only [ok_bind] at h))
  all_goals try exact (Except.noConfusion h)
  all_goals injection h with h
  all_goals subst h
  all_goals refine ⟨rfl, ?_, ?_⟩
  all_goals intro x hx
  all_goals first
    | cases hx
    | (injection hx with hx; subst hx)
  all_goals try (dsimp only)
  all_goals constructor <;> omega

theorem adjustBound_start_eq (n : Nat) (step : Int) (b : Option Int)
    (hb : ∀ s, b = some s → 0 ≤ s ∧ s < n) :
    adjustBound n step 0 ((n : Int) - 1) b
      = b.getD (if 0 < step then 0 else (n : Int) - 1) := by
  cases b with
  | none => rfl
  | some s =>
      obtain ⟨h0, h1⟩ := hb s rfl
      simp only [adjustBound, Option.getD]
      rw [if_neg (by omega), if_neg (by omega), if_neg (by omega)]

theorem adjustBound_stop_eq (n : Nat) (step : Int) (b : Option Int)
    (hb : ∀ t, b = some t → 0 ≤ t ∧ t < n) :
    adjustBound n step n (-1) b
      = b.getD (if 0 < step then (n : Int) else -1) := by
  cases b with
  | none => rfl
  | some t =>
      obtain ⟨h0, h1⟩ := hb t rfl
      simp only [adjustBound, Option.getD]
      rw [if_neg (by omega), if_neg (by omega), if_neg (by omega)]

theorem corrected_positions_eq (n : Nat) (sl cs : PSlice)
    (h : get_correct_slice n sl = .ok cs) :
    get_int_indexes_from_slice n cs
      = pySliceIdx n cs.start cs.stop (cs.step.getD 1) := by
  obtain ⟨hstep, hs, ht⟩ := get_correct_slice_bounds n sl cs h
  rw [get_int_indexes_from_slice, pySliceIdx,
    adjustBound_start_eq n _ _ hs, adjustBound_stop_eq n _ _ ht]

/-- C3 (amended): on the multi-level index the corrected slice drives set and
get identically: the half-open expansion of a corrected slice equals the
Python slice-index set that both `_set_rows_by_slice` writes (columns and
cache swap) and `get_rows_by_slice` reads; the single-level `__setitem__`
instead expands the raw, uncorrected slice half-open, while `__getitem__`
reads through the corrected slice. -/
theorem C3_slice_set_get_positions :
    (∀ (n : Nat) (sl cs : PSlice), get_correct_slice n sl = .ok cs →
      get_int_indexes_from_slice n cs
        = pySliceIdx n cs.start cs.stop (cs.step.getD 1)) ∧
    (∀ (n : Nat) (sl : PSlice),
      slice_write_positions n sl
        = (get_correct_slice n sl).map
            (fun cs => pySliceIdx n cs.start cs.stop (cs.step.getD 1))) ∧
    (∀ (ix : SIndex) (sl : PSlice) (item : Scalar),
      setitem ix (.sslice sl) item
        = set_items_by_int_indexes ix item
            ((get_int_indexes_from_slice ix.len sl).map .pi)) ∧
    (∀ (ix : SIndex) (sl : PSlice),
      getitem ix (.sslice sl)
        = (get_items_from_slice ix sl).map (fun vs => some (.many vs))) := by
  refine ⟨fun n sl cs h => corrected_positions_eq n sl cs h, ?_,
    fun ix sl item => rfl, ?_⟩
  · intro n sl
    cases hgc : get_correct_slice n sl with
    | error e =>
        simp only [slice_write_positions, hgc, error_bind, Except.map]
    | ok cs =>
        simp only [slice_write_positions, hgc, ok_bind, Except.map]
        rw [corrected_positions_eq n sl cs hgc]
  · intro ix sl
    show (do
      let vs ← get_items_from_slice ix sl
      Except.ok (some (GetRes.many vs))) = _
    cases hg : get_items_from_slice ix sl with
    | error e => rw [error_bind]; rfl
    | ok vs => rw [ok_bind]; rfl

theorem C3_slice_set_get_positions_witness :
    get_correct_slice 4 ⟨some 1, some 3, none⟩ = .ok ⟨some 1, none, some 1⟩ ∧
    get_int_indexes_from_slice 4 ⟨some 1, none, some 1⟩
      = pySliceIdx 4 (PSlice.mk (some 1) none (some 1)).start
          (PSlice.mk (some 1) none (some 1)).stop
          ((PSlice.mk (some 1) none (some 1)).step.getD 1) :=
  ⟨by decide,
    C3_slice_set_get_positions.1 4 ⟨some 1, some 3, none⟩ ⟨some 1, none, some 1⟩ (by decide)⟩

theorem from_tuples_names_none (tups : List (List Scalar)) (c : MIndex)
    (h : from_tuples tups = .ok c) : c.names = none := by
  simp only [from_tuples] at h
  obtain ⟨u, hu, h⟩ := bind_ok h
  obtain ⟨cols, hcols, h⟩ := bind_ok h
  simp only [mkMultiIndex] at h
  obtain ⟨data, hdata, h⟩ := bind_ok h
  obtain ⟨nm, hnm, h⟩ := bind_ok h
  simp only [set_names] at hnm
  injection hnm with hnm
  injection h with h
  subst h
  subst hnm
  simp only [if_true]
  rfl

/-- C4 (amended): in-place `extend` merges by name exactly when
`_compare_names` holds and positionally otherwise (`merge_target`), while `+`
always merges positionally: the copy `from_tuples(first.to_tuples())`
carries no names, a nameless first never satisfies `_compare_names`, and
`__add__` is insensitive to the first operand's names. -/
theorem C4_add_always_positional :
    (∀ (m second : MIndex),
      mextend m second = add_multiindexes m second true) ∧
    (∀ (m second : MIndex),
      madd m second = add_multiindexes m second false) ∧
    (∀ (m second : MIndex) (level : Nat),
      merge_target m second false level = .ok level) ∧
    (∀ (tups : List (List Scalar)) (c : MIndex),
      from_tuples tups = .ok c → c.names = none) ∧
    (∀ (c second : MIndex), c.names = none →
      compare_names c second = false) ∧
    (∀ (m second : MIndex),
      madd m second = madd { m with names := none } second) :=
  ⟨fun _ _ => rfl, fun _ _ => rfl, fun _ _ _ => rfl,
    from_tuples_names_none,
    fun c second h => by rw [compare_names, h],
    fun _ _ => rfl⟩

theorem C4_add_always_positional_witness :
    from_tuples [[Scalar.int 1, Scalar.int 10], [Scalar.int 2, Scalar.int 20]]
      = .ok ⟨[[0, 1], [2, 3]],
          [(0, Scalar.int 1), (1, Scalar.int 2), (2, Scalar.int 10),
            (3, Scalar.int 20)],
          [(Scalar.int 1, 0), (Scalar.int 2, 1), (Scalar.int 10, 2),
            (Scalar.int 20, 3)],
          2, none, some [([0, 2], [0]), ([1, 3], [1])]⟩ ∧
    (⟨[[0, 1], [2, 3]],
        [(0, Scalar.int 1), (1, Scalar.int 2), (2, Scalar.int 10),
          (3, Scalar.int 20)],
        [(Scalar.int 1, 0), (Scalar.int 2, 1), (Scalar.int 10, 2),
          (Scalar.int 20, 3)],
        2, none, some [([0, 2], [0]), ([1, 3], [1])]⟩ : MIndex).names
      = none :=
  ⟨by decide,
    C4_add_always_positional.2.2.2.1 [[Scalar.int 1, Scalar.int 10],
        [Scalar.int 2, Scalar.int 20]]
      ⟨[[0, 1], [2, 3]],
        [(0, Scalar.int 1), (1, Scalar.int 2), (2, Scalar.int 10),
          (3, Scalar.int 20)],
        [(Scalar.int 1, 0), (Scalar.int 2, 1), (Scalar.int 10, 2),
          (Scalar.int 20, 3)],
        2, none, some [([0, 2], [0]), ([1, 3], [1])]⟩ (by decide)⟩

theorem dictGet_of_default_lookup_none {β : Type}
    (l : List (List Nat × β)) (k : List Nat)
    (h : List.lookup k l = none) : dictGet l k = .error .keyError := by
  induction l with
  | nil => rfl
  | cons p rest ih =>
      obtain ⟨ka, vb⟩ := p
      by_cases hk : k = ka
      · subst hk
        simp [List.lookup_cons] at h
      · simp only [List.lookup_cons, beq_false_of_ne hk, cond_false] at h
        have hstep : dictGet ((ka, vb) :: rest) k = dictGet rest k := by
          simp only [dictGet, lookup_cons_ite, if_neg hk]
        rw [hstep]
        exact ih h

/-- C6 (amended): `MultiIndex.get_loc` raises the level-mismatch error when
the tuple arity differs from the level count; for a tuple that is not a row,
`give_error=False` yields the `None` sentinel without a cache (both `get_all`
values) and with a cache when `get_all=False`, but with a cache whose keys
miss the tuple and `get_all=True` the bare cache probe raises `KeyError`
instead of returning the sentinel. -/
theorem C6_get_loc_sentinel_and_cache_probe (m : MIndex) (tup : ScalarTuple)
    (hv : verify_tuple tup = .ok ()) :
    (tup.toList.length ≠ m.levels →
      ∀ ga ge, mget_loc m tup ga ge = .error .indexError) ∧
    (tup.toList.length = m.levels →
      (lookup_components m.rev false tup.toList = .ok none →
        ∀ ga, mget_loc m tup ga false = .ok .noneRes) ∧
      (∀ internal,
        lookup_components m.rev false tup.toList = .ok (some internal) →
        (¬ mcacheTruthy m →
          (mscan_first m internal = none →
            mget_loc m tup false false = .ok .noneRes) ∧
          mget_loc m tup true false = .ok .noneRes) ∧
        (mcacheTruthy m → (m.cache.getD []).lookup internal = none →
          mget_loc m tup false false = .ok .noneRes ∧
          mget_loc m tup true false = .error .keyError))) := by
  constructor
  · intro hlen ga ge
    simp only [mget_loc, hv, ok_bind]
    rw [if_pos hlen, error_bind]
  · intro hlen
    have hne : ¬ tup.toList.length ≠ m.levels := fun hc => hc hlen
    constructor
    · intro hlu ga
      simp only [mget_loc, hv, ok_bind]
      rw [if_neg hne, pure_ok, ok_bind, hlu, ok_bind]
    · intro internal hlu
      constructor
      · intro hnc
        constructor
        · intro hscan
          simp only [mget_loc, hv, ok_bind]
          rw [if_neg hne, pure_ok, ok_bind, hlu, ok_bind]
          simp only [if_pos hnc]
          rw [hscan]
          simp
        · simp only [mget_loc, hv, ok_bind]
          rw [if_neg hne, pure_ok, ok_bind, hlu, ok_bind]
          simp only [if_pos hnc]
          simp
      · intro hc hlk
        constructor
        · simp only [mget_loc, hv, ok_bind]
          rw [if_neg hne, pure_ok, ok_bind, hlu, ok_bind]
          simp only [if_neg (not_not_intro hc)]
          rw [hlk]
          simp
        · simp only [mget_loc, hv, ok_bind]
          rw [if_neg hne, pure_ok, ok_bind, hlu, ok_bind]
          simp only [if_neg (not_not_intro hc)]
          rw [if_neg (by simp)]
          rw [dictGet_of_default_lookup_none _ _ hlk]
          rfl

theorem C6_get_loc_sentinel_and_cache_probe_witness :
    verify_tuple (.cons (Scalar.int 1) (.cons (Scalar.int 20) .nil))
      = .ok () ∧
    lookup_components
      [(Scalar.int 1, 0), (Scalar.int 2, 1), (Scalar.int 10, 2),
        (Scalar.int 20, 3)] false
      (ScalarTuple.cons (Scalar.int 1)
        (.cons (Scalar.int 20) .nil)).toList = .ok (some [0, 3]) ∧
    mget_loc
      ⟨[[0, 1], [2, 3]],
        [(0, Scalar.int 1), (1, Scalar.int 2), (2, Scalar.int 10),
          (3, Scalar.int 20)],
        [(Scalar.int 1, 0), (Scalar.int 2, 1), (Scalar.int 10, 2),
          (Scalar.int 20, 3)],
        2, none, some [([0, 2], [0]), ([1, 3], [1])]⟩
      (.cons (Scalar.int 1) (.cons (Scalar.int 20) .nil)) false false
      = .ok .noneRes ∧
    mget_loc
      ⟨[[0, 1], [2, 3]],
        [(0, Scalar.int 1), (1, Scalar.int 2), (2, Scalar.int 10),
          (3, Scalar.int 20)],
        [(Scalar.int 1, 0), (Scalar.int 2, 1), (Scalar.int 10, 2),
          (Scalar.int 20, 3)],
        2, none, some [([0, 2], [0]), ([1, 3], [1])]⟩
      (.cons (Scalar.int 1) (.cons (Scalar.int 20) .nil)) true false
      = .error .keyError :=
  ⟨by decide, by decide,
    ((C6_get_loc_sentinel_and_cache_probe
        ⟨[[0, 1], [2, 3]],
          [(0, Scalar.int 1), (1, Scalar.int 2), (2, Scalar.int 10),
            (3, Scalar.int 20)],
          [(Scalar.int 1, 0), (Scalar.int 2, 1), (Scalar.int 10, 2),
            (Scalar.int 20, 3)],
          2, none, some [([0, 2], [0]), ([1, 3], [1])]⟩
        (.cons (Scalar.int 1) (.cons (Scalar.int 20) .nil))
        (by decide)).2 (by decide)).2 [0, 3] (by decide)
      |>.2 (by decide) (by decide) |>.1,
    ((C6_get_loc_sentinel_and_cache_probe
        ⟨[[0, 1], [2, 3]],
          [(0, Scalar.int 1), (1, Scalar.int 2), (2, Scalar.int 10),
            (3, Scalar.int 20)],
          [(Scalar.int 1, 0), (Scalar.int 2, 1), (Scalar.int 10, 2),
            (Scalar.int 20, 3)],
          2, none, some [([0, 2], [0]), ([1, 3], [1])]⟩
        (.cons (Scalar.int 1) (.cons (Scalar.int 20) .nil))
        (by decide)).2 (by decide)).2 [0, 3] (by decide)
      |>.2 (by decide) (by decide) |>.2⟩

theorem lookup_components_true_ok (rev : List (Scalar × Nat)) :
    ∀ (l : List Scalar) (o : Option (List Nat)),
      lookup_components rev true l = .ok o ↔
        ∃ ks, o = some ks ∧
          List.Forall₂ (fun x k => rev.lookup x = some k) l ks := by
  intro l
  induction l with
  | nil =>
      intro o
      constructor
      · intro h
        injection h with h
        exact ⟨[], h.symm, List.Forall₂.nil⟩
      · rintro ⟨ks, rfl, hf⟩
        cases hf
        rfl
  | cons x xs ih =>
      intro o
      constructor
      · intro h
        simp only [lookup_components] at h
        cases hx : rev.lookup x with
        | none => rw [hx] at h; simp at h
        | some k =>
            rw [hx] at h
            obtain ⟨o', ho', h⟩ := bind_ok h
            cases o' with
            | none =>
                obtain ⟨ks', hks', hf⟩ := (ih none).1 ho'
                cases hks'
            | some ks' =>
                obtain ⟨ks'', hks'', hf⟩ := (ih (some ks')).1 ho'
                injection hks'' with hks''
                subst hks''
                injection h with h
                exact ⟨k :: ks', h.symm, List.Forall₂.cons hx hf⟩
      · rintro ⟨ks, rfl, hf⟩
        cases hf with
        | cons hx hf' =>
            rename_i k ks'
            simp only [lookup_components, hx]
            rw [(ih (some ks')).2 ⟨ks', rfl, hf'⟩, ok_bind]

theorem mapM_lookup_some (rev : List (Scalar × Nat)) :
    ∀ (l : List Scalar) (ks : List Nat),
      l.mapM (fun s => rev.lookup s) = some ks ↔
        List.Forall₂ (fun x k => rev.lookup x = some k) l ks := by
  intro l
  induction l with
  | nil =>
      intro ks
      constructor
      · intro h
        injection h with h
        subst h
        exact List.Forall₂.nil
      · intro h
        cases h
        rfl
  | cons x xs ih =>
      intro ks
      constructor
      · intro h
        rw [List.mapM_cons] at h
        cases hx : rev.lookup x with
        | none => rw [hx] at h; simp at h
        | some k =>
            rw [hx] at h
            cases hxs : xs.mapM (fun s => rev.lookup s) with
            | none => rw [hxs] at h; simp at h
            | some ks' =>
                rw [hxs] at h
                simp at h
                subst h
                exact List.Forall₂.cons hx ((ih ks').1 hxs)
      · intro h
        cases h with
        | cons hx hf =>
            rename_i k ks'
            rw [List.mapM_cons, hx, (ih ks').2 hf]
            rfl

theorem row_matches_iff_rowKeys (m : MIndex) (ks : List Nat) (i : Nat)
    (hlen : ks.length = m.levels) :
    row_matches m ks i = true ↔ rowKeys m i = ks := by
  rw [row_matches, rowKeys, List.all_eq_true]
  constructor
  · intro h
    refine List.ext_get ?_ ?_
    · simp [hlen]
    · intro j h1 h2
      simp only [List.get_eq_getElem, List.getElem_map, List.getElem_range]
      have hj : j < ks.length := by simpa using h2
      have := h (j, ks.get ⟨j, hj⟩) (by
        rw [List.mem_enum_iff_getElem?]
        simp [List.getElem?_eq_getElem hj])
      simp only [decide_eq_true_eq] at this
      rw [colOf]
      exact this
  · intro h p hp
    subst h
    rw [List.mem_enum_iff_getElem?] at hp
    have hp1 : p.1 < m.levels := by
      by_contra hc
      rw [List.getElem?_eq_none (by simp; omega)] at hp
      cases hp
    rw [List.getElem?_eq_getElem (by simpa using hp1)] at hp
    injection hp with hp
    simp only [List.getElem_map, List.getElem_range] at hp
    rw [decide_eq_true_eq, ← hp]
    rfl

theorem col_interned (m : MIndex) (hwf : MWF m) (l : Nat)
    (hl : l < m.levels) (i : Nat) (hi : i < mlen m) :
    ∃ v, m.mapping.lookup ((colOf m l).getD i 0) = some v ∧
      m.rev.lookup v = some ((colOf m l).getD i 0) := by
  have hlm : l < m.multiindex.length := by rw [← hwf.levels_eq]; exact hl
  have hcol : colOf m l = m.multiindex[l] := by
    rw [colOf, List.getD_eq_getElem?_getD, List.getElem?_eq_getElem hlm]
    rfl
  have hmem : m.multiindex[l] ∈ m.multiindex := List.getElem_mem hlm
  have hilen : i < (colOf m l).length := by
    rw [hcol, hwf.cols_len _ hmem]
    exact hi
  have hkmem : (colOf m l).getD i 0 ∈ colOf m l := by
    rw [List.getD_eq_getElem?_getD, List.getElem?_eq_getElem hilen]
    exact List.getElem_mem hilen
  have hdom := hwf.cols_dom _ hmem ((colOf m l).getD i 0) (by rwa [← hcol])
  cases hv : m.mapping.lookup ((colOf m l).getD i 0) with
  | none => rw [hv] at hdom; cases hdom
  | some v =>
      refine ⟨v, rfl, ?_⟩
      exact hwf.maps_fwd _ (mem_of_lookup_eq_some hv)

theorem readRow_forall₂ (m : MIndex) (hwf : MWF m) (i : Nat)
    (hi : i < mlen m) (t : List Scalar) :
    readRow m (i : Int) = t ↔
      List.Forall₂ (fun x k => m.rev.lookup x = some k) t (rowKeys m i) := by
  have htn : ((i : Int)).toNat = i := Int.toNat_natCast i
  constructor
  · intro h
    subst h
    rw [List.forall₂_iff_get]
    refine ⟨by simp [readRow, rowKeys], ?_⟩
    intro j h1 h2
    simp only [readRow, rowKeys, List.get_eq_getElem, List.getElem_map,
      List.getElem_range, htn] at h1 h2 ⊢
    have hj : j < m.levels := by simpa using h2
    obtain ⟨v, hv, hrv⟩ := col_interned m hwf j hj i hi
    rw [hv]
    simpa using hrv
  · intro h
    have hlen : t.length = m.levels := by
      have := List.Forall₂.length_eq h
      simpa [rowKeys] using this
    refine List.ext_get ?_ ?_
    · simp [readRow, hlen]
    · intro j h1 h2
      have hj : j < m.levels := by
        simpa [readRow] using h1
      rw [List.forall₂_iff_get] at h
      obtain ⟨-, hh⟩ := h
      have := hh j (by omega) (by simp [rowKeys, hj])
      simp only [List.get_eq_getElem, List.getElem_map, List.getElem_range,
        rowKeys] at this
      have hmb := hwf.maps_bwd _ (mem_of_lookup_eq_some this)
      simp only [readRow, List.get_eq_getElem, List.getElem_map,
        List.getElem_range, htn]
      rw [hmb]
      rfl

theorem scalarTuple_length_toList : ∀ (t : ScalarTuple),
    t.toList.length = t.length
  | .nil => rfl
  | .cons a t => by
      simp [ScalarTuple.toList, ScalarTuple.length,
        scalarTuple_length_toList t]

theorem dictMem_create_cache_list {κ : Type} [DecidableEq κ]
    (rows : List κ) (k : κ) :
    dictMem (create_cache_list rows 0 []) k = true ↔ k ∈ rows := by
  rw [dictMem, create_cache_list_lookup]
  show (match (List.lookup k ([] : List (κ × List Int))) with
    | some b => some (b ++ enum_positions 0 rows k)
    | none => if k ∈ rows then some (enum_positions 0 rows k)
        else none).isSome = true ↔ k ∈ rows
  by_cases hk : k ∈ rows <;> simp [List.lookup, hk]

theorem mg_verify_error (m : MIndex) (t : ScalarTuple) (ga ge : Bool)
    (e : PErr) (hv : verify_tuple t = .error e) :
    mget_loc m t ga ge = .error e := by
  simp only [mget_loc, hv, error_bind]

theorem mg_len_mismatch (m : MIndex) (t : ScalarTuple) (ga ge : Bool)
    (hv : verify_tuple t = .ok ())
    (hlen : t.toList.length ≠ m.levels) :
    mget_loc m t ga ge = .error .indexError := by
  simp only [mget_loc, hv, ok_bind]
  rw [if_pos hlen, error_bind]

theorem mg_lookup_error (m : MIndex) (t : ScalarTuple) (ga ge : Bool)
    (e : PErr) (hv : verify_tuple t = .ok ())
    (hlen : t.toList.length = m.levels)
    (hlu : lookup_components m.rev ge t.toList = .error e) :
    mget_loc m t ga ge = .error e := by
  simp only [mget_loc, hv, ok_bind]
  rw [if_neg (fun hc => hc hlen), pure_ok, ok_bind, hlu, error_bind]

theorem mg_nocache_scan_some (m : MIndex) (t : ScalarTuple) (ge : Bool)
    (ks : List Nat) (j : Nat) (hv : verify_tuple t = .ok ())
    (hlen : t.toList.length = m.levels)
    (hlu : lookup_components m.rev ge t.toList = .ok (some ks))
    (hnc : ¬ mcacheTruthy m) (hscan : mscan_first m ks = some j) :
    mget_loc m t false ge = .ok (.one (j : Int)) := by
  simp only [mget_loc, hv, ok_bind]
  rw [if_neg (fun hc => hc hlen), pure_ok, ok_bind, hlu, ok_bind]
  simp only [if_pos hnc]
  rw [if_pos (by simp)]
  rw [hscan]

theorem mg_nocache_scan_none (m : MIndex) (t : ScalarTuple)
    (ks : List Nat) (hv : verify_tuple t = .ok ())
    (hlen : t.toList.length = m.levels)
    (hlu : lookup_components m.rev true t.toList = .ok (some ks))
    (hnc : ¬ mcacheTruthy m) (hscan : mscan_first m ks = none) :
    mget_loc m t false true = .error .valueError := by
  simp only [mget_loc, hv, ok_bind]
  rw [if_neg (fun hc => hc hlen), pure_ok, ok_bind, hlu, ok_bind]
  simp only [if_pos hnc]
  rw [if_pos (by simp)]
  rw [hscan]
  rfl

theorem mscan_first_some_elim (m : MIndex) (ks : List Nat) (j : Nat)
    (h : mscan_first m ks = some j) :
    j < mlen m ∧ row_matches m ks j = true := by
  rw [mscan_first] at h
  exact ⟨List.mem_range.1 (List.mem_of_find?_eq_some h), List.find?_some h⟩

theorem mscan_first_exists (m : MIndex) (ks : List Nat) (i : Nat)
    (hi : i < mlen m) (hm : row_matches m ks i = true) :
    ∃ j, mscan_first m ks = some j := by
  rw [mscan_first]
  have hs : ((List.range (mlen m)).find? (row_matches m ks)).isSome := by
    rw [List.find?_isSome]
    exact ⟨i, List.mem_range.2 hi, hm⟩
  exact Option.isSome_iff_exists.1 hs

theorem mcontains_nocache_eq (m : MIndex) (t : ScalarTuple)
    (hl : ¬ m.levels ≠ t.length) (hnc : ¬ mcacheTruthy m) :
    mcontains m (.tup t) =
      match mget_loc m t false true with
      | .ok _ => .ok true
      | .error _ => .ok false := by
  simp only [mcontains]
  rw [if_neg hl, if_neg hnc]

/-- C9 (amended): membership `t in m` never raises and is `False` for
non-tuples and arity mismatches; without a cache it is `True` exactly when
the verified tuple is a row; with a cache it tests membership of the
interned key tuple among the cache keys, which coincides with the rows for
a freshly built cache. -/
theorem C9_contains_characterization (m : MIndex) :
    (∀ item : Scalar, ∃ b, mcontains m item = .ok b) ∧
    (∀ item : Scalar, (∀ t, item ≠ .tup t) →
      mcontains m item = .ok false) ∧
    (∀ t : ScalarTuple, m.levels ≠ t.length →
      mcontains m (.tup t) = .ok false) ∧
    (MWF m → ¬ mcacheTruthy m → ∀ t : ScalarTuple,
      (mcontains m (.tup t) = .ok true ↔
        verify_tuple t = .ok () ∧ t.toList ∈ rowsOf m)) ∧
    (mcacheTruthy m → ∀ t : ScalarTuple, m.levels = t.length →
      (∀ ks, t.toList.mapM (fun s => m.rev.lookup s) = some ks →
        mcontains m (.tup t) = .ok (dictMem (m.cache.getD []) ks)) ∧
      (t.toList.mapM (fun s => m.rev.lookup s) = none →
        mcontains m (.tup t) = .ok false)) ∧
    (MWF m → 0 < mlen m → ∀ t : ScalarTuple,
      (mcontains (mcreate_cache m) (.tup t) = .ok true ↔
        t.toList ∈ rowsOf m)) := by
  have hmc_len : ∀ t : ScalarTuple, m.levels ≠ t.length →
      mcontains m (.tup t) = .ok false := by
    intro t hl
    simp only [mcontains]
    rw [if_pos hl]
  refine ⟨?_, ?_, hmc_len, ?_, ?_, ?_⟩
  · intro item
    cases item with
    | int i => exact ⟨false, rfl⟩
    | str s => exact ⟨false, rfl⟩
    | tup t =>
        by_cases hl : m.levels ≠ t.length
        · exact ⟨false, hmc_len t hl⟩
        · by_cases hc : mcacheTruthy m
          · cases hm : t.toList.mapM (fun s => m.rev.lookup s) with
            | some ks =>
                refine ⟨dictMem (m.cache.getD []) ks, ?_⟩
                simp only [mcontains]
                rw [if_neg hl, if_pos hc, hm]
            | none =>
                refine ⟨false, ?_⟩
                simp only [mcontains]
                rw [if_neg hl, if_pos hc, hm]
          · cases hg : mget_loc m t false true with
            | ok r =>
                refine ⟨true, ?_⟩
                rw [mcontains_nocache_eq m t hl hc, hg]
            | error e =>
                refine ⟨false, ?_⟩
                rw [mcontains_nocache_eq m t hl hc, hg]
  · intro item hni
    cases item with
    | int i => rfl
    | str s => rfl
    | tup t => exact absurd rfl (hni t)
  · intro hwf hnc t
    constructor
    · intro h
      by_cases hl : m.levels ≠ t.length
      · rw [hmc_len t hl] at h
        simp at h
      · rw [mcontains_nocache_eq m t hl hnc] at h
        push_neg at hl
        have hlen : t.toList.length = m.levels := by
          rw [scalarTuple_length_toList, hl]
        cases hvv : verify_tuple t with
        | error e => rw [mg_verify_error m t false true e hvv] at h; simp at h
        | ok u =>
            cases u
            cases hlu : lookup_components m.rev true t.toList with
            | error e =>
                rw [mg_lookup_error m t false true e hvv hlen hlu] at h
                simp at h
            | ok o =>
                cases o with
                | none =>
                    obtain ⟨ks, hks, -⟩ :=
                      (lookup_components_true_ok m.rev t.toList none).1 hlu
                    cases hks
                | some ks =>
                    obtain ⟨ks', hks', hf⟩ :=
                      (lookup_components_true_ok m.rev t.toList (some ks)).1 hlu
                    injection hks' with hks'
                    subst hks'
                    cases hscan : mscan_first m ks with
                    | none =>
                        rw [mg_nocache_scan_none m t ks hvv hlen hlu hnc
                          hscan] at h
                        simp at h
                    | some j =>
                        obtain ⟨hj, hrm⟩ := mscan_first_some_elim m ks j hscan
                        have hksl : ks.length = m.levels := by
                          rw [← List.Forall₂.length_eq hf, hlen]
                        have hkeq := (row_matches_iff_rowKeys m ks j hksl).1 hrm
                        have hread := (readRow_forall₂ m hwf j hj t.toList).2
                          (by rw [hkeq]; exact hf)
                        refine ⟨rfl, ?_⟩
                        rw [rowsOf]
                        exact List.mem_map.2 ⟨j, List.mem_range.2 hj, hread⟩
    · rintro ⟨hvv, hmem⟩
      rw [rowsOf] at hmem
      obtain ⟨i, hi, hread⟩ := List.mem_map.1 hmem
      rw [List.mem_range] at hi
      have hf := (readRow_forall₂ m hwf i hi t.toList).1 hread
      have hks := (lookup_components_true_ok m.rev t.toList
        (some (rowKeys m i))).2 ⟨rowKeys m i, rfl, hf⟩
      have hlen : t.toList.length = m.levels := by
        rw [List.Forall₂.length_eq hf]
        simp [rowKeys]
      have hl : ¬ m.levels ≠ t.length := by
        rw [← scalarTuple_length_toList t, hlen]
        exact fun hc => hc rfl
      have hrm : row_matches m (rowKeys m i) i = true :=
        (row_matches_iff_rowKeys m _ i (by simp [rowKeys])).2 rfl
      obtain ⟨j, hj⟩ := mscan_first_exists m (rowKeys m i) i hi hrm
      rw [mcontains_nocache_eq m t hl hnc,
        mg_nocache_scan_some m t true (rowKeys m i) j hvv hlen hks hnc hj]
  · intro hc t hlen
    have hl : ¬ m.levels ≠ t.length := fun hcon => hcon hlen
    constructor
    · intro ks hm
      simp only [mcontains]
      rw [if_neg hl, if_pos hc, hm]
    · intro hm
      simp only [mcontains]
      rw [if_neg hl, if_pos hc, hm]
  · intro hwf hpos t
    have hccl : (mcreate_cache m).cache
        = some (create_cache_list
            ((List.range (mlen m)).map (rowKeys m)) 0 []) := rfl
    have hkey0 : rowKeys m 0 ∈ (List.range (mlen m)).map (rowKeys m) :=
      List.mem_map.2 ⟨0, List.mem_range.2 hpos, rfl⟩
    have hne : create_cache_list
        ((List.range (mlen m)).map (rowKeys m)) 0 [] ≠ [] := by
      intro hnil
      have := (dictMem_create_cache_list
        ((List.range (mlen m)).map (rowKeys m)) (rowKeys m 0)).2 hkey0
      rw [dictMem, hnil] at this
      simp [List.lookup] at this
    have htru : mcacheTruthy (mcreate_cache m) = true := by
      rw [mcacheTruthy, hccl]
      simp [List.isEmpty_iff, hne]
    have hrev : (mcreate_cache m).rev = m.rev := rfl
    have hlev : (mcreate_cache m).levels = m.levels := rfl
    constructor
    · intro h
      by_cases hl : (mcreate_cache m).levels ≠ t.length
      · rw [show mcontains (mcreate_cache m) (.tup t) = .ok false from by
            simp only [mcontains]; rw [if_pos hl]] at h
        simp at h
      · cases hm : t.toList.mapM (fun s => m.rev.lookup s) with
        | none =>
            rw [show mcontains (mcreate_cache m) (.tup t) = .ok false from by
              simp only [mcontains]; rw [if_neg hl, if_pos htru]
              rw [hrev, hm]] at h
            simp at h
        | some ks =>
            rw [show mcontains (mcreate_cache m) (.tup t)
                = .ok (dictMem ((mcreate_cache m).cache.getD []) ks) from by
              simp only [mcontains]; rw [if_neg hl, if_pos htru]
              rw [hrev, hm]] at h
            injection h with h
            rw [hccl, Option.getD_some] at h
            have hmem := (dictMem_create_cache_list _ ks).1 h
            obtain ⟨i, hi, hkeq⟩ := List.mem_map.1 hmem
            rw [List.mem_range] at hi
            have hf := (mapM_lookup_some m.rev t.toList ks).1 hm
            have hread := (readRow_forall₂ m hwf i hi t.toList).2
              (by rw [hkeq]; exact hf)
            rw [rowsOf]
            exact List.mem_map.2 ⟨i, List.mem_range.2 hi, hread⟩
    · intro hmem
      rw [rowsOf] at hmem
      obtain ⟨i, hi, hread⟩ := List.mem_map.1 hmem
      rw [List.mem_range] at hi
      have hf := (readRow_forall₂ m hwf i hi t.toList).1 hread
      have hm := (mapM_lookup_some m.rev t.toList (rowKeys m i)).2 hf
      have hlen : t.toList.length = m.levels := by
        rw [List.Forall₂.length_eq hf]
        simp [rowKeys]
      have hl : ¬ (mcreate_cache m).levels ≠ t.length := by
        rw [hlev, ← scalarTuple_length_toList t, hlen]
        exact fun hc => hc rfl
      rw [show mcontains (mcreate_cache m) (.tup t)
          = .ok (dictMem ((mcreate_cache m).cache.getD []) (rowKeys m i)) from by
        simp only [mcontains]; rw [if_neg hl, if_pos htru]
        rw [hrev, hm]]
      rw [hccl, Option.getD_some]
      rw [(dictMem_create_cache_list _ (rowKeys m i)).2
        (List.mem_map.2 ⟨i, List.mem_range.2 hi, rfl⟩)]

theorem C9_contains_characterization_witness :
    (¬ mcacheTruthy ⟨[[0, 1], [2, 3]],
        [(0, Scalar.int 1), (1, Scalar.int 2), (2, Scalar.int 10),
          (3, Scalar.int 20)],
        [(Scalar.int 1, 0), (Scalar.int 2, 1), (Scalar.int 10, 2),
          (Scalar.int 20, 3)], 2, none, none⟩) ∧
    verify_tuple (.cons (Scalar.int 1) (.cons (Scalar.int 10) .nil))
      = .ok () ∧
    (ScalarTuple.cons (Scalar.int 1)
        (.cons (Scalar.int 10) .nil)).toList ∈
      rowsOf ⟨[[0, 1], [2, 3]],
        [(0, Scalar.int 1), (1, Scalar.int 2), (2, Scalar.int 10),
          (3, Scalar.int 20)],
        [(Scalar.int 1, 0), (Scalar.int 2, 1), (Scalar.int 10, 2),
          (Scalar.int 20, 3)], 2, none, none⟩ ∧
    mcontains ⟨[[0, 1], [2, 3]],
        [(0, Scalar.int 1), (1, Scalar.int 2), (2, Scalar.int 10),
          (3, Scalar.int 20)],
        [(Scalar.int 1, 0), (Scalar.int 2, 1), (Scalar.int 10, 2),
          (Scalar.int 20, 3)], 2, none, none⟩
      (.tup (.cons (Scalar.int 1) (.cons (Scalar.int 10) .nil)))
      = .ok true :=
  ⟨by decide, by decide, by decide,
    ((C9_contains_characterization ⟨[[0, 1], [2, 3]],
        [(0, Scalar.int 1), (1, Scalar.int 2), (2, Scalar.int 10),
          (3, Scalar.int 20)],
        [(Scalar.int 1, 0), (Scalar.int 2, 1), (Scalar.int 10, 2),
          (Scalar.int 20, 3)], 2, none, none⟩).2.2.2.1
      ⟨by decide, by decide, by decide, by decide, by decide⟩
      (by decide)
      (.cons (Scalar.int 1) (.cons (Scalar.int 10) .nil))).2
      ⟨by decide, by decide⟩⟩
